import Mathlib

/-!
Verification of `Tools::CalculateRMSE` (src/src/tools.cpp).

A shallow embedding of the one function of `tools.cpp`.

* The function is embedded once, for any scalar type `α` with its arithmetic
  (`0`, `+`, `-`, `*`, `/`, the conversion of a size to a scalar and the square
  root).  The code runs it on `double`: the type `Double` below models IEEE 754
  binary64 with round to nearest, ties to even.  Theorems about sizes and the
  diagnostic hold for every scalar arithmetic.  Theorems about values are stated
  for `Double`, or for every arithmetic; a few closed evaluations and the
  symmetry of the two arguments are stated over the real numbers.
* `Eigen::VectorXd` is a dynamically sized vector, here a list of scalars.  The
  Eigen operations that need operands of equal size (`a - b`, `a.array() *
  b.array()`, `a += b`) are defined on operands of equal size only; on other
  operands the embedding gives no result (`none`), and no claim rests on that
  case.
* `std::vector<VectorXd>` is a list of vectors, `v[i]` is fallible indexing.
* `cout` is a list of lines, threaded through the call.
* The loop counter is `unsigned int i`, compared with a 64-bit size.
  `accumulate` describes the iterations of the loop as long as the counter has
  not wrapped, that is for fewer than `2^32` pairs; `loopCounter` and `loopTest`
  describe the counter and the test of the loop for every size.
-/

namespace Tools

/-- Eigen's `VectorXd`: a vector of scalars whose size is known at run time. -/
abbrev VectorXd (α : Type) := List α

/-- The line written to `cout` on the invalid-input path (tools.cpp:22). -/
def diagnostic : String := "Invalid estimation or ground_truth data size"

/-- Eigen `a - b` on two `VectorXd`: defined when the sizes agree. -/
def vsub {α : Type} [Sub α] (a b : VectorXd α) : Option (VectorXd α) :=
  if a.length = b.length then some (List.zipWith (fun x y => x - y) a b) else none

/-- Eigen `a.array() * b.array()`: coefficient-wise product, defined when the
sizes agree. -/
def arrayMul {α : Type} [Mul α] (a b : VectorXd α) : Option (VectorXd α) :=
  if a.length = b.length then some (List.zipWith (fun x y => x * y) a b) else none

/-- Eigen `dst += src` on two `VectorXd`: `dst` is not resized, the sizes have
to agree. -/
def addAssign {α : Type} [Add α] (dst src : VectorXd α) : Option (VectorXd α) :=
  if dst.length = src.length then some (List.zipWith (fun x y => x + y) dst src) else none

/-- Eigen `v / s` for a scalar `s`: every coefficient is divided by `s`. -/
def divScalar {α : Type} [Div α] (v : VectorXd α) (s : α) : VectorXd α :=
  v.map (fun x => x / s)

/-- Eigen `v.array().sqrt()`: coefficient-wise square root. -/
def arraySqrt {α : Type} (sqrt : α → α) (v : VectorXd α) : VectorXd α :=
  v.map sqrt

/-- The test of tools.cpp:21,
`(estimations.size() != ground_truth.size()) || (estimations.size() == 0)`. -/
def invalidSize {α : Type} (estimations ground_truth : List (VectorXd α)) : Bool :=
  (estimations.length != ground_truth.length) || (estimations.length == 0)

/-- The loop of tools.cpp:27-33, `for (i = ..; i < estimations.size(); ++i)`,
with the counter at `i` and `todo` iterations left.  One iteration reads
`estimations[i]` and `ground_truth[i]`, forms the residual, squares it
coefficient-wise and adds it into `rmse`. -/
def accumulate {α : Type} [Add α] [Sub α] [Mul α]
    (estimations ground_truth : List (VectorXd α)) :
    Nat → Nat → VectorXd α → Option (VectorXd α)
  | 0, _, rmse => some rmse
  | todo + 1, i, rmse =>
    match estimations[i]?, ground_truth[i]? with
    | some e, some g =>
      match vsub e g with
      | none => none
      | some residual =>
        match arrayMul residual residual with
        | none => none
        | some residual =>
          match addAssign rmse residual with
          | none => none
          | some rmse => accumulate estimations ground_truth todo (i + 1) rmse
    | _, _ => none

/-- `Tools::CalculateRMSE` (tools.cpp:12-42).  The result is the returned vector
(`none`: an Eigen operation met operands of different sizes, a case the
embedding does not describe) and the contents of `cout` after the call. -/
def CalculateRMSE {α : Type} [Zero α] [Add α] [Sub α] [Mul α] [Div α] [NatCast α]
    (sqrt : α → α) (estimations ground_truth : List (VectorXd α))
    (cout : List String) : Option (VectorXd α) × List String :=
  let rmse : VectorXd α := [0, 0, 0, 0]
  if invalidSize estimations ground_truth then
    (some rmse, cout ++ [diagnostic])
  else
    match accumulate estimations ground_truth estimations.length 0 rmse with
    | none => (none, cout)
    | some rmse =>
      let rmse := divScalar rmse (estimations.length : α)
      let rmse := arraySqrt sqrt rmse
      (some rmse, cout)

/-- The coefficient `s[i](k)` of a sequence of vectors (`0` outside the
sequence or the vector); used to state closed forms only. -/
def coeff {α : Type} [Zero α] (s : List (VectorXd α)) (i k : Nat) : α :=
  (s.getD i []).getD k 0

/-- The squared residual of pair `i` at coefficient `k`. -/
def sqResidual {α : Type} [Zero α] [Sub α] [Mul α]
    (estimations ground_truth : List (VectorXd α)) (k i : Nat) : α :=
  (coeff estimations i k - coeff ground_truth i k) *
    (coeff estimations i k - coeff ground_truth i k)

/-- Every vector of the sequence has 4 coefficients. -/
def dim4 {α : Type} (s : List (VectorXd α)) : Prop :=
  ∀ v ∈ s, v.length = 4

/-- The sequence `s` of `n` elements reordered by `p`: element `i` of the
result is `s[p i]`; used to state the reordering claims only. -/
def reorder {β : Type} {n : Nat} (p : Fin n → Fin n) (s : List β) (h : s.length = n) :
    List β :=
  List.ofFn fun i : Fin n => s.get ((p i).cast h.symm)


/-- The sum the loop forms for coefficient `k` of `n` pairs: the squared
residuals of the pairs `0, 1, .., n-1`, added to `0` in this order. -/
def sumSq {α : Type} [Zero α] [Add α] [Sub α] [Mul α]
    (estimations ground_truth : List (VectorXd α)) (k n : Nat) : α :=
  (List.range n).foldl (fun acc i => acc + sqResidual estimations ground_truth k i) 0

/-- The value of the loop counter `unsigned int i` (tools.cpp:27) after `k`
executions of `++i`, starting from `i = 0`: 32-bit arithmetic wraps around. -/
def loopCounter (k : Nat) : Nat := k % 2 ^ 32

/-- The test `i < estimations.size()` of the loop (tools.cpp:27) after `k`
iterations, for a sequence of `size` elements; the loop is left the first time
the test fails. -/
def loopTest (size k : Nat) : Bool := decide (loopCounter k < size)

/-- An IEEE 754 binary64 value, the C++ type `double`.  A finite value is
`± mag * 2^(-1074)`: `mag` counts multiples of the smallest positive double, and
`neg` is the sign bit, so `finite true 0` is `-0.0`.  The payloads of NaN are not
told apart.  The doubles are the values whose magnitude is `representable`; the
operations below round to such magnitudes, and a theorem stated for every value
of the type holds for every double. -/
inductive Double where
  | finite (neg : Bool) (mag : Nat)
  | inf (neg : Bool)
  | nan
  deriving DecidableEq

namespace Double

/-- Auxiliary recursion of `log2`, on a bound for the number of halvings. -/
def log2Aux : Nat → Nat → Nat
  | 0, _ => 0
  | fuel + 1, n => if n < 2 then 0 else log2Aux fuel (n / 2) + 1

/-- The position of the leading bit of `n` (`0` for `n = 0`). -/
def log2 (n : Nat) : Nat := log2Aux n n

/-- Auxiliary recursion of `isqrt`: the bits below `2^b` are still to be
decided. -/
def isqrtAux (n : Nat) : Nat → Nat → Nat
  | 0, r => r
  | b + 1, r =>
    if (r + 2 ^ b) * (r + 2 ^ b) ≤ n then isqrtAux n b (r + 2 ^ b) else isqrtAux n b r

/-- The integer square root, rounded down. -/
def isqrt (n : Nat) : Nat := isqrtAux n (log2 n / 2 + 1) 0

/-- The quotient `P / D` rounded to the nearest integer, ties to even. -/
def rne (P D : Nat) : Nat :=
  if D < 2 * (P % D) ∨ (2 * (P % D) = D ∧ (P / D) % 2 = 1) then P / D + 1 else P / D

/-- The exponent of the unit in the last place of a magnitude `x`: a double has
53 significant bits, and all magnitudes below `2^53` are multiples of `1`. -/
def ulpExp (x : Nat) : Nat := log2 x - 52

/-- The exponent of `1.0` in units of `2^(-1074)`. -/
@[irreducible] def expOfOne : Nat := 1074

/-- The exponent of `2^1024` in units of `2^(-1074)`. -/
@[irreducible] def expOverflow : Nat := 2098

/-- The magnitude of `1.0`: `2^1074` units of `2^(-1074)`. -/
def unitsOfOne : Nat := 2 ^ expOfOne

/-- The magnitude of `2^1024`, the first power of two that is too large for a
double. -/
def overflowMag : Nat := 2 ^ expOverflow

/-- A magnitude that a double can have: at most 53 significant bits, below
`2^1024` (which is `2^2098` in units of `2^(-1074)`). -/
def representable (mag : Nat) : Prop := mag < overflowMag ∧ mag % 2 ^ ulpExp mag = 0

/-- The magnitude with at most 53 significant bits nearest to `P / Q`, ties to
even. -/
def roundMag (P Q : Nat) : Nat :=
  rne P (Q * 2 ^ ulpExp (P / Q)) * 2 ^ ulpExp (P / Q)

/-- The double nearest to `± P / Q` (in units of `2^(-1074)`), ties to even;
infinity from `2^1024` on. -/
def round (neg : Bool) (P Q : Nat) : Double :=
  if overflowMag ≤ roundMag P Q then inf neg else finite neg (roundMag P Q)

/-- IEEE addition `x + y`. -/
def add : Double → Double → Double
  | nan, _ => nan
  | _, nan => nan
  | inf a, inf b => if a = b then inf a else nan
  | inf a, finite _ _ => inf a
  | finite _ _, inf b => inf b
  | finite a x, finite b y =>
    if a = b then round a (x + y) 1
    else if x = y then finite false 0
    else if y < x then round a (x - y) 1
    else round b (y - x) 1

/-- IEEE negation `-x`. -/
def neg : Double → Double
  | nan => nan
  | inf a => inf (!a)
  | finite a x => finite (!a) x

/-- IEEE subtraction `x - y`. -/
def sub (x y : Double) : Double := add x (neg y)

/-- IEEE multiplication `x * y`. -/
def mul : Double → Double → Double
  | nan, _ => nan
  | _, nan => nan
  | inf a, inf b => inf (a != b)
  | inf a, finite b y => if y = 0 then nan else inf (a != b)
  | finite a x, inf b => if x = 0 then nan else inf (a != b)
  | finite a x, finite b y => round (a != b) (x * y) unitsOfOne

/-- IEEE division `x / y`. -/
def div : Double → Double → Double
  | nan, _ => nan
  | _, nan => nan
  | inf _, inf _ => nan
  | inf a, finite b _ => inf (a != b)
  | finite a _, inf b => finite (a != b) 0
  | finite a x, finite b y =>
    if y = 0 then (if x = 0 then nan else inf (a != b))
    else round (a != b) (x * unitsOfOne) y

/-- The magnitude with at most 53 significant bits nearest to the square root of
`N`, ties to even: the integer square root is cut to 53 bits and the discarded
part is compared with half a unit in the last place. -/
def sqrtMag (N : Nat) : Nat :=
  if (2 * (isqrt N / 2 ^ ulpExp (isqrt N)) + 1) ^ 2 * 4 ^ ulpExp (isqrt N) < 4 * N ∨
      ((2 * (isqrt N / 2 ^ ulpExp (isqrt N)) + 1) ^ 2 * 4 ^ ulpExp (isqrt N) = 4 * N ∧
        (isqrt N / 2 ^ ulpExp (isqrt N)) % 2 = 1)
  then (isqrt N / 2 ^ ulpExp (isqrt N) + 1) * 2 ^ ulpExp (isqrt N)
  else isqrt N / 2 ^ ulpExp (isqrt N) * 2 ^ ulpExp (isqrt N)

/-- IEEE square root, correctly rounded (`sqrt` on a double).  The square root
of `x * 2^(-1074)` is the square root of `x * 2^1074` in units of `2^(-1074)`. -/
def sqrt : Double → Double
  | nan => nan
  | inf a => if a then nan else inf false
  | finite a x =>
    if x = 0 then finite a 0
    else if a then nan
    else finite false (sqrtMag (x * unitsOfOne))

/-- The conversion of a size to `double` (the divisor `estimations.size()`). -/
def ofNat (n : Nat) : Double := round false (n * unitsOfOne) 1

/-- The double with the 64-bit pattern `b`: sign bit, 11 exponent bits, 52
fraction bits. -/
def ofBits (b : Nat) : Double :=
  if (b / 2 ^ 52) % 2 ^ 11 = 2047 then
    (if b % 2 ^ 52 = 0 then inf ((b / 2 ^ 63) % 2 = 1) else nan)
  else if (b / 2 ^ 52) % 2 ^ 11 = 0 then finite ((b / 2 ^ 63) % 2 = 1) (b % 2 ^ 52)
  else finite ((b / 2 ^ 63) % 2 = 1)
    ((2 ^ 52 + b % 2 ^ 52) * 2 ^ ((b / 2 ^ 52) % 2 ^ 11 - 1))

/-- IEEE comparison `x <= y`: false when an operand is NaN, and `-0.0 <= 0.0`. -/
def le : Double → Double → Bool
  | nan, _ => false
  | _, nan => false
  | inf a, inf b => a || !b
  | inf a, finite _ _ => a
  | finite _ _, inf b => !b
  | finite false x, finite false y => decide (x ≤ y)
  | finite true x, finite true y => decide (y ≤ x)
  | finite true _, finite false _ => true
  | finite false x, finite true y => decide (x = 0 ∧ y = 0)

/-- The sign bit is clear and the value is not NaN: `+0.0`, a positive double
or `+inf`. -/
def isPlus : Double → Bool
  | finite a _ => !a
  | inf a => !a
  | nan => false

/-- Neither an infinity nor NaN. -/
def isFinite : Double → Bool
  | finite _ _ => true
  | _ => false

/-- The exact value of a finite double as a rational number (`0` for the
infinities and NaN). -/
def toRat : Double → ℚ
  | finite a x => (if a then -1 else 1) * (x : ℚ) / unitsOfOne
  | _ => 0

end Double

instance : Zero Double := ⟨Double.finite false 0⟩

instance : Add Double := ⟨Double.add⟩

instance : Sub Double := ⟨Double.sub⟩

instance : Mul Double := ⟨Double.mul⟩

instance : Div Double := ⟨Double.div⟩

instance : NatCast Double := ⟨Double.ofNat⟩

/-- Every coefficient of every vector of the sequence is finite. -/
def allFinite (s : List (VectorXd Double)) : Prop :=
  ∀ v ∈ s, ∀ x ∈ v, x.isFinite = true


namespace Double

/-- The double `1.0`. -/
def one : Double := finite false unitsOfOne

/-- Plus infinity or a finite double of at least `1.0`. -/
def atLeastOne : Double → Bool
  | finite a m => !a && decide (unitsOfOne ≤ m)
  | inf a => !a
  | nan => false

/-- The comparison `fabs(x) <= fabs(y)` of doubles (false when either is NaN). -/
def absLe : Double → Double → Bool
  | nan, _ => false
  | _, nan => false
  | _, inf _ => true
  | inf _, finite _ _ => false
  | finite _ x, finite _ y => decide (x ≤ y)

/-- The absolute value `fabs(x)`. -/
def abs : Double → Double
  | finite _ x => finite false x
  | inf _ => inf false
  | nan => nan

/-- The double is zero, infinite, or of magnitude at least `2^-511` and below
`2^511`: its square neither overflows nor falls below the normal range. -/
def squareInRange : Double → Bool
  | finite _ x => decide (x = 0 ∨ (2 ^ (expOfOne - 511) ≤ x ∧ x < 2 ^ (expOfOne + 511)))
  | inf _ => true
  | nan => false

/-- The magnitude of the double is below `2^-521`. -/
def nearZero : Double → Bool
  | finite _ x => decide (x < 2 ^ (expOfOne - 521))
  | _ => false

/-- The double is NaN or its sign bit is clear. -/
def notMinus : Double → Bool
  | finite a _ => !a
  | inf a => !a
  | nan => true

/-- The double is NaN, plus infinity, or finite with clear sign bit and a
magnitude of at least `2^k` units of `2^-1074`. -/
def notBelow (k : Nat) : Double → Bool
  | finite a m => !a && decide (2 ^ k ≤ m)
  | inf a => !a
  | nan => true

end Double

/-- The sequence of `n` vectors whose element `j` is `[1, 0, 0, 0]` and whose other
elements are `[0, 0, 0, 0]`; used to state the reordering claims only. -/
def unitAt (n : Nat) (j : Fin n) : List (VectorXd Double) :=
  List.ofFn fun i : Fin n => if i = j then [Double.one, 0, 0, 0] else [0, 0, 0, 0]

/-- The value the code computes from `n` pairs whose residual at a component is
`r` every time: `r * r` added `n` times to `0`, in order, divided by `n`, and the
square root of the quotient. -/
def constRMSE (r : Double) (n : Nat) : Double :=
  Double.sqrt ((List.range n).foldl (fun acc _ => acc + r * r) 0 / (n : Double))

/-! ## The loop and the two paths of the function -/

theorem length_four {α : Type} {v : List α} (h : v.length = 4) :
    ∃ a b c d, v = [a, b, c, d] := by
  match v, h with
  | [a, b, c, d], _ => exact ⟨a, b, c, d, rfl⟩

theorem coeff_of_getElem? {α : Type} [Zero α] {s : List (VectorXd α)} {i : Nat}
    {v : VectorXd α} (h : s[i]? = some v) (k : Nat) : coeff s i k = v.getD k 0 := by
  simp [coeff, List.getD_eq_getElem?_getD, h]

theorem sum_range_shift {α : Type} [AddCommMonoid α] (F : Nat → α) (i n : Nat) :
    ∑ j in Finset.range (n + 1), F (i + j) = F i + ∑ j in Finset.range n, F (i + 1 + j) := by
  rw [Finset.sum_range_succ', add_comm]
  congr 1
  apply Finset.sum_congr rfl
  intro j _
  congr 1
  omega

theorem accumulate_eq {α : Type} [Field α] (est gt : List (VectorXd α))
    (he : dim4 est) (hg : dim4 gt) (hlen : est.length = gt.length) :
    ∀ (todo i : Nat) (a b c d : α), i + todo = est.length →
      accumulate est gt todo i [a, b, c, d] =
        some [a + ∑ j in Finset.range todo, sqResidual est gt 0 (i + j),
              b + ∑ j in Finset.range todo, sqResidual est gt 1 (i + j),
              c + ∑ j in Finset.range todo, sqResidual est gt 2 (i + j),
              d + ∑ j in Finset.range todo, sqResidual est gt 3 (i + j)] := by
  intro todo
  induction todo with
  | zero => intro i a b c d _; simp [accumulate]
  | succ n ih =>
    intro i a b c d hi
    have hie : i < est.length := by omega
    have hig : i < gt.length := by omega
    have hes : est[i]? = some est[i] := List.getElem?_eq_getElem hie
    have hgs : gt[i]? = some gt[i] := List.getElem?_eq_getElem hig
    obtain ⟨e0, e1, e2, e3, hev⟩ := length_four (he _ (List.getElem_mem hie))
    obtain ⟨g0, g1, g2, g3, hgv⟩ := length_four (hg _ (List.getElem_mem hig))
    rw [hev] at hes
    rw [hgv] at hgs
    have hs : ∀ k, sqResidual est gt k i =
        (([e0, e1, e2, e3] : List α).getD k 0 - ([g0, g1, g2, g3] : List α).getD k 0) *
        (([e0, e1, e2, e3] : List α).getD k 0 - ([g0, g1, g2, g3] : List α).getD k 0) := by
      intro k
      simp only [sqResidual, coeff_of_getElem? hes, coeff_of_getElem? hgs]
    simp only [accumulate, hes, hgs, vsub, arrayMul, addAssign, List.length_cons,
      List.length_nil, List.zipWith_cons_cons, List.zipWith_nil_left, if_true]
    rw [ih (i + 1) _ _ _ _ (by omega)]
    have shift : ∀ k, ∑ j in Finset.range (n + 1), sqResidual est gt k (i + j) =
        sqResidual est gt k i + ∑ j in Finset.range n, sqResidual est gt k (i + 1 + j) :=
      fun k => sum_range_shift (fun m => sqResidual est gt k m) i n
    simp only [shift, hs]
    simp [add_assoc]

theorem invalidSize_iff {α : Type} (est gt : List (VectorXd α)) :
    invalidSize est gt = true ↔ (est.length ≠ gt.length ∨ est.length = 0) := by
  simp [invalidSize]

theorem invalidSize_false_iff {α : Type} (est gt : List (VectorXd α)) :
    invalidSize est gt = false ↔ (est.length = gt.length ∧ 0 < est.length) := by
  simp [invalidSize, Nat.pos_iff_ne_zero]

/-- The invalid-input path (tools.cpp:21-24). -/
theorem CalculateRMSE_invalid {α : Type} [Zero α] [Add α] [Sub α] [Mul α] [Div α] [NatCast α]
    (sqrt : α → α) (est gt : List (VectorXd α)) (cout : List String)
    (h : invalidSize est gt = true) :
    CalculateRMSE sqrt est gt cout = (some [0, 0, 0, 0], cout ++ [diagnostic]) := by
  simp [CalculateRMSE, h]

/-- What the call leaves in `cout`, for every input. -/
theorem CalculateRMSE_cout {α : Type} [Zero α] [Add α] [Sub α] [Mul α] [Div α] [NatCast α]
    (sqrt : α → α) (est gt : List (VectorXd α)) (cout : List String) :
    (CalculateRMSE sqrt est gt cout).2 =
      if invalidSize est gt = true then cout ++ [diagnostic] else cout := by
  unfold CalculateRMSE
  by_cases h : invalidSize est gt = true
  · simp [h]
  · simp only [h, if_false, Bool.false_eq_true]
    split <;> rfl

/-- The valid path in closed form, over any field and any square-root function. -/
theorem CalculateRMSE_valid {α : Type} [Field α] (sqrt : α → α)
    (est gt : List (VectorXd α)) (cout : List String)
    (hlen : est.length = gt.length) (hpos : 0 < est.length)
    (he : dim4 est) (hg : dim4 gt) :
    CalculateRMSE sqrt est gt cout =
      (some [sqrt ((∑ j in Finset.range est.length, sqResidual est gt 0 j) / est.length),
             sqrt ((∑ j in Finset.range est.length, sqResidual est gt 1 j) / est.length),
             sqrt ((∑ j in Finset.range est.length, sqResidual est gt 2 j) / est.length),
             sqrt ((∑ j in Finset.range est.length, sqResidual est gt 3 j) / est.length)],
       cout) := by
  have hv : invalidSize est gt = false := (invalidSize_false_iff est gt).2 ⟨hlen, hpos⟩
  have hacc := accumulate_eq est gt he hg hlen est.length 0 0 0 0 0 (by simp)
  simp only [zero_add] at hacc
  simp [CalculateRMSE, hv, hacc, divScalar, arraySqrt]

theorem length_reorder {β : Type} {n : Nat} (p : Fin n → Fin n) (s : List β)
    (h : s.length = n) : (reorder p s h).length = n := by
  simp [reorder]

theorem dim4_reorder {α : Type} {n : Nat} (p : Fin n → Fin n) (s : List (VectorXd α))
    (h : s.length = n) (hs : dim4 s) : dim4 (reorder p s h) := by
  intro v hv
  obtain ⟨i, rfl⟩ := (List.mem_ofFn _ _).1 hv
  exact hs _ (List.get_mem _ _ _)

theorem coeff_reorder {α : Type} [Zero α] {n : Nat} (p : Fin n → Fin n)
    (s : List (VectorXd α)) (h : s.length = n) (i : Fin n) (k : Nat) :
    coeff (reorder p s h) i k = coeff s (p i) k := by
  have h1 : (reorder p s h)[(i : Nat)]? = some (s.get ((p i).cast h.symm)) := by
    simp [reorder, List.getElem?_ofFn]
  have h2 : s[((p i : Fin n) : Nat)]? = some (s.get ((p i).cast h.symm)) := by
    rw [List.getElem?_eq_getElem (by rw [h]; exact (p i).isLt)]
    rfl
  rw [coeff_of_getElem? h1, coeff_of_getElem? h2]

/-- Swapping the two elements of a sequence of length 2. -/
theorem reorder_swap_pair {β : Type} (a b : β) :
    reorder (Equiv.swap (0 : Fin 2) 1) [a, b] rfl = [b, a] := by
  rfl

/-! ## Claims on sizes, the diagnostic, closed evaluations and symmetry -/

/-- Claim C2: when the two sequence lengths differ or either sequence is empty,
`CalculateRMSE` returns the zero vector of dimension 4 and writes the diagnostic
line, whatever the vectors in the sequences are (any contents, any dimensions,
any scalar arithmetic). -/
theorem CalculateRMSE_invalid_input {α : Type}
    [Zero α] [Add α] [Sub α] [Mul α] [Div α] [NatCast α] (sqrt : α → α)
    (estimations ground_truth : List (VectorXd α)) (cout : List String)
    (h : estimations.length ≠ ground_truth.length ∨ estimations = [] ∨ ground_truth = []) :
    CalculateRMSE sqrt estimations ground_truth cout =
      (some [0, 0, 0, 0], cout ++ ["Invalid estimation or ground_truth data size"]) := by
  apply CalculateRMSE_invalid
  rw [invalidSize_iff]
  rcases h with h | h | h
  · exact Or.inl h
  · exact Or.inr (by simp [h])
  · by_cases he : estimations.length = 0
    · exact Or.inr he
    · exact Or.inl (by simpa [h] using he)

/-- Witness of C2: sequences of different lengths holding vectors of dimensions
2, 1 and 3. -/
theorem CalculateRMSE_invalid_input_witness :
    (([[1, 2], [3]] : List (VectorXd ℝ)).length ≠ ([[4, 5, 6]] : List (VectorXd ℝ)).length ∨
        ([[1, 2], [3]] : List (VectorXd ℝ)) = [] ∨ ([[4, 5, 6]] : List (VectorXd ℝ)) = []) ∧
      CalculateRMSE Real.sqrt [[1, 2], [3]] [[4, 5, 6]] ["earlier line"] =
        (some [0, 0, 0, 0], ["earlier line"] ++ ["Invalid estimation or ground_truth data size"]) :=
  ⟨Or.inl (by decide),
    CalculateRMSE_invalid_input Real.sqrt [[1, 2], [3]] [[4, 5, 6]] ["earlier line"]
      (Or.inl (by decide))⟩

/-- Claim C8: the call appends the line
"Invalid estimation or ground_truth data size" to `cout` exactly when the two
sequence lengths differ or the estimation sequence is empty, and leaves `cout`
as it was for every input with equal non-zero lengths. -/
theorem CalculateRMSE_diagnostic {α : Type}
    [Zero α] [Add α] [Sub α] [Mul α] [Div α] [NatCast α] (sqrt : α → α)
    (estimations ground_truth : List (VectorXd α)) (cout : List String) :
    ((CalculateRMSE sqrt estimations ground_truth cout).2 =
        if estimations.length ≠ ground_truth.length ∨ estimations.length = 0
        then cout ++ ["Invalid estimation or ground_truth data size"] else cout) ∧
      ((CalculateRMSE sqrt estimations ground_truth cout).2 ≠ cout ↔
        (estimations.length ≠ ground_truth.length ∨ estimations.length = 0)) := by
  have hc := CalculateRMSE_cout sqrt estimations ground_truth cout
  by_cases h : estimations.length ≠ ground_truth.length ∨ estimations.length = 0
  · have hv := (invalidSize_iff estimations ground_truth).2 h
    rw [hc, if_pos hv, if_pos h]
    exact ⟨rfl, ⟨fun _ => h, fun _ => by simp [diagnostic]⟩⟩
  · have hv : ¬ invalidSize estimations ground_truth = true :=
      fun hv => h ((invalidSize_iff estimations ground_truth).1 hv)
    rw [hc, if_neg hv, if_neg h]
    exact ⟨rfl, ⟨fun hne => absurd rfl hne, fun hh => absurd hh h⟩⟩

/-- Claim C9: for `estimations = [[1,0,0,0],[3,0,0,0]]` and
`ground_truth = [[0,0,0,0],[0,0,0,0]]` the loop leaves the sum `[10,0,0,0]`, the
mean over 2 is `[5,0,0,0]`, and `CalculateRMSE` returns `[sqrt 5, 0, 0, 0]`. -/
theorem CalculateRMSE_two_pairs (cout : List String) :
    accumulate ([[1, 0, 0, 0], [3, 0, 0, 0]] : List (VectorXd ℝ))
        [[0, 0, 0, 0], [0, 0, 0, 0]] 2 0 [0, 0, 0, 0] = some [10, 0, 0, 0] ∧
      divScalar ([10, 0, 0, 0] : VectorXd ℝ) ((2 : Nat) : ℝ) = [5, 0, 0, 0] ∧
      CalculateRMSE Real.sqrt [[1, 0, 0, 0], [3, 0, 0, 0]] [[0, 0, 0, 0], [0, 0, 0, 0]] cout =
        (some [Real.sqrt 5, 0, 0, 0], cout) := by
  have hacc : accumulate ([[1, 0, 0, 0], [3, 0, 0, 0]] : List (VectorXd ℝ))
      [[0, 0, 0, 0], [0, 0, 0, 0]] 2 0 [0, 0, 0, 0] = some [10, 0, 0, 0] := by
    simp [accumulate, vsub, arrayMul, addAssign]
    norm_num
  have hdiv : divScalar ([10, 0, 0, 0] : VectorXd ℝ) ((2 : Nat) : ℝ) = [5, 0, 0, 0] := by
    simp [divScalar]
    norm_num
  refine ⟨hacc, hdiv, ?_⟩
  simp only [CalculateRMSE, invalidSize, List.length_cons, List.length_nil]
  simp only [Nat.reduceAdd, bne_self_eq_false, Nat.reduceBEq, Bool.or_self, Bool.false_eq_true,
    if_false, hacc, hdiv]
  simp [arraySqrt]

/-- Claim C12: pairing is by index: for `estimations = [[1,0,0,0],[3,0,0,0]]`
and `ground_truth = [[1,0,0,0],[0,0,0,0]]`, swapping the two estimations only
changes the result, from `[sqrt (9/2),0,0,0]` to `[sqrt (5/2),0,0,0]`. -/
theorem CalculateRMSE_swap_estimations (cout : List String) :
    reorder (Equiv.swap (0 : Fin 2) 1) ([[1, 0, 0, 0], [3, 0, 0, 0]] : List (VectorXd ℝ)) rfl =
        [[3, 0, 0, 0], [1, 0, 0, 0]] ∧
      CalculateRMSE Real.sqrt [[1, 0, 0, 0], [3, 0, 0, 0]] [[1, 0, 0, 0], [0, 0, 0, 0]] cout =
        (some [Real.sqrt (9 / 2), 0, 0, 0], cout) ∧
      CalculateRMSE Real.sqrt [[3, 0, 0, 0], [1, 0, 0, 0]] [[1, 0, 0, 0], [0, 0, 0, 0]] cout =
        (some [Real.sqrt (5 / 2), 0, 0, 0], cout) ∧
      (CalculateRMSE Real.sqrt [[3, 0, 0, 0], [1, 0, 0, 0]] [[1, 0, 0, 0], [0, 0, 0, 0]] cout).1 ≠
        (CalculateRMSE Real.sqrt [[1, 0, 0, 0], [3, 0, 0, 0]] [[1, 0, 0, 0], [0, 0, 0, 0]] cout).1 := by
  have h1 : CalculateRMSE Real.sqrt [[1, 0, 0, 0], [3, 0, 0, 0]] [[1, 0, 0, 0], [0, 0, 0, 0]]
      cout = (some [Real.sqrt (9 / 2), 0, 0, 0], cout) := by
    have hacc : accumulate ([[1, 0, 0, 0], [3, 0, 0, 0]] : List (VectorXd ℝ))
        [[1, 0, 0, 0], [0, 0, 0, 0]] 2 0 [0, 0, 0, 0] = some [9, 0, 0, 0] := by
      simp [accumulate, vsub, arrayMul, addAssign]
      norm_num
    have hdiv : divScalar ([9, 0, 0, 0] : VectorXd ℝ) ((2 : Nat) : ℝ) = [9 / 2, 0, 0, 0] := by
      simp [divScalar]
    simp only [CalculateRMSE, invalidSize, List.length_cons, List.length_nil]
    simp only [Nat.reduceAdd, bne_self_eq_false, Nat.reduceBEq, Bool.or_self,
      Bool.false_eq_true, if_false, hacc, hdiv]
    simp only [arraySqrt, List.map_cons, List.map_nil, Real.sqrt_zero]
  have h2 : CalculateRMSE Real.sqrt [[3, 0, 0, 0], [1, 0, 0, 0]] [[1, 0, 0, 0], [0, 0, 0, 0]]
      cout = (some [Real.sqrt (5 / 2), 0, 0, 0], cout) := by
    have hacc : accumulate ([[3, 0, 0, 0], [1, 0, 0, 0]] : List (VectorXd ℝ))
        [[1, 0, 0, 0], [0, 0, 0, 0]] 2 0 [0, 0, 0, 0] = some [5, 0, 0, 0] := by
      simp [accumulate, vsub, arrayMul, addAssign]
      norm_num
    have hdiv : divScalar ([5, 0, 0, 0] : VectorXd ℝ) ((2 : Nat) : ℝ) = [5 / 2, 0, 0, 0] := by
      simp [divScalar]
    simp only [CalculateRMSE, invalidSize, List.length_cons, List.length_nil]
    simp only [Nat.reduceAdd, bne_self_eq_false, Nat.reduceBEq, Bool.or_self,
      Bool.false_eq_true, if_false, hacc, hdiv]
    simp only [arraySqrt, List.map_cons, List.map_nil, Real.sqrt_zero]
  refine ⟨reorder_swap_pair _ _, h1, h2, ?_⟩
  rw [h1, h2]
  simp only [ne_eq, Option.some.injEq, List.cons.injEq, and_true]
  rw [Real.sqrt_inj (by norm_num) (by norm_num)]
  norm_num

/-- Claim C14: `CalculateRMSE` is symmetric in its two arguments, for every pair
of sequences of 4-dimensional vectors, of valid or invalid lengths: the returned
vector and the lines written are the same. -/
theorem CalculateRMSE_symmetric (estimations ground_truth : List (VectorXd ℝ))
    (cout : List String) (he : dim4 estimations) (hg : dim4 ground_truth) :
    CalculateRMSE Real.sqrt estimations ground_truth cout =
      CalculateRMSE Real.sqrt ground_truth estimations cout := by
  by_cases hv : invalidSize estimations ground_truth = true
  · have hv2 : invalidSize ground_truth estimations = true := by
      rw [invalidSize_iff] at hv ⊢
      omega
    rw [CalculateRMSE_invalid Real.sqrt estimations ground_truth cout hv,
      CalculateRMSE_invalid Real.sqrt ground_truth estimations cout hv2]
  · have hv2 := (invalidSize_false_iff estimations ground_truth).1 (by simpa using hv)
    rw [CalculateRMSE_valid Real.sqrt estimations ground_truth cout hv2.1 hv2.2 he hg,
      CalculateRMSE_valid Real.sqrt ground_truth estimations cout hv2.1.symm (by omega) hg he,
      hv2.1]
    have hs : ∀ k j, sqResidual estimations ground_truth k j =
        sqResidual ground_truth estimations k j := by
      intro k j
      simp only [sqResidual]
      ring
    simp only [hs]

/-- Witness of C14 on two sequences of two 4-dimensional vectors. -/
theorem CalculateRMSE_symmetric_witness :
    (dim4 ([[1, 2, 3, 4], [5, 6, 7, 8]] : List (VectorXd ℝ)) ∧
      dim4 ([[0, 1, 0, 1], [2, 0, 2, 0]] : List (VectorXd ℝ))) ∧
    CalculateRMSE Real.sqrt [[1, 2, 3, 4], [5, 6, 7, 8]] [[0, 1, 0, 1], [2, 0, 2, 0]] [] =
      CalculateRMSE Real.sqrt [[0, 1, 0, 1], [2, 0, 2, 0]] [[1, 2, 3, 4], [5, 6, 7, 8]] [] :=
  ⟨⟨by simp [dim4], by simp [dim4]⟩,
    CalculateRMSE_symmetric [[1, 2, 3, 4], [5, 6, 7, 8]] [[0, 1, 0, 1], [2, 0, 2, 0]] []
      (by simp [dim4]) (by simp [dim4])⟩

/-! ## The loop as a sum in index order, for every scalar arithmetic -/

/-- The loop in closed form, for every scalar arithmetic: each coefficient of
the accumulator receives the squared residuals of the pairs `i, i+1, ..` in
this order. -/
theorem accumulate_fold {α : Type} [Zero α] [Add α] [Sub α] [Mul α]
    (est gt : List (VectorXd α))
    (he : dim4 est) (hg : dim4 gt) (hlen : est.length = gt.length) :
    ∀ (todo i : Nat) (a b c d : α), i + todo = est.length →
      accumulate est gt todo i [a, b, c, d] =
        some [(List.range' i todo).foldl (fun acc j => acc + sqResidual est gt 0 j) a,
              (List.range' i todo).foldl (fun acc j => acc + sqResidual est gt 1 j) b,
              (List.range' i todo).foldl (fun acc j => acc + sqResidual est gt 2 j) c,
              (List.range' i todo).foldl (fun acc j => acc + sqResidual est gt 3 j) d] := by
  intro todo
  induction todo with
  | zero => intro i a b c d _; simp [accumulate]
  | succ n ih =>
    intro i a b c d hi
    have hie : i < est.length := by omega
    have hig : i < gt.length := by omega
    have hes : est[i]? = some est[i] := List.getElem?_eq_getElem hie
    have hgs : gt[i]? = some gt[i] := List.getElem?_eq_getElem hig
    obtain ⟨e0, e1, e2, e3, hev⟩ := length_four (he _ (List.getElem_mem hie))
    obtain ⟨g0, g1, g2, g3, hgv⟩ := length_four (hg _ (List.getElem_mem hig))
    rw [hev] at hes
    rw [hgv] at hgs
    have hs : ∀ k, sqResidual est gt k i =
        (([e0, e1, e2, e3] : List α).getD k 0 - ([g0, g1, g2, g3] : List α).getD k 0) *
        (([e0, e1, e2, e3] : List α).getD k 0 - ([g0, g1, g2, g3] : List α).getD k 0) := by
      intro k
      simp only [sqResidual, coeff_of_getElem? hes, coeff_of_getElem? hgs]
    simp only [accumulate, hes, hgs, vsub, arrayMul, addAssign, List.length_cons,
      List.length_nil, List.zipWith_cons_cons, List.zipWith_nil_left, if_true]
    rw [ih (i + 1) _ _ _ _ (by omega)]
    simp only [List.range'_succ, List.foldl_cons, hs]
    rfl

/-- The valid path in closed form, for every scalar arithmetic: the square root
of the sum in index order divided by the number of pairs. -/
theorem CalculateRMSE_fold {α : Type} [Zero α] [Add α] [Sub α] [Mul α] [Div α] [NatCast α]
    (sqrt : α → α) (est gt : List (VectorXd α)) (cout : List String)
    (hlen : est.length = gt.length) (hpos : 0 < est.length)
    (he : dim4 est) (hg : dim4 gt) :
    CalculateRMSE sqrt est gt cout =
      (some [sqrt (sumSq est gt 0 est.length / (est.length : α)),
             sqrt (sumSq est gt 1 est.length / (est.length : α)),
             sqrt (sumSq est gt 2 est.length / (est.length : α)),
             sqrt (sumSq est gt 3 est.length / (est.length : α))], cout) := by
  have hv : invalidSize est gt = false := (invalidSize_false_iff est gt).2 ⟨hlen, hpos⟩
  have hacc := accumulate_fold est gt he hg hlen est.length 0 0 0 0 0 (by simp)
  simp only [CalculateRMSE, hv, hacc, divScalar, arraySqrt, sumSq, List.range_eq_range',
    Bool.false_eq_true, if_false, List.map_cons, List.map_nil]

/-! ## The arithmetic of `Double` -/

namespace Double

theorem log2Aux_eq : ∀ (fuel n : Nat), n ≤ fuel → log2Aux fuel n = Nat.log2 n := by
  intro fuel
  induction fuel with
  | zero =>
    intro n hn
    have : n = 0 := by omega
    subst this
    rw [Nat.log2]
    simp [log2Aux]
  | succ f ih =>
    intro n hn
    rw [Nat.log2]
    by_cases h2 : n < 2
    · simp [log2Aux, h2, Nat.not_le.2 h2]
    · have h3 : n ≥ 2 := by omega
      simp only [log2Aux, h2, if_false, h3, if_true]
      rw [ih (n / 2) (by omega)]

theorem log2_eq (n : Nat) : log2 n = Nat.log2 n := log2Aux_eq n n (Nat.le_refl n)

theorem pow_log2_le {n : Nat} (h : n ≠ 0) : 2 ^ log2 n ≤ n := by
  rw [log2_eq]
  exact Nat.log2_self_le h

theorem lt_pow_log2 (n : Nat) : n < 2 ^ (log2 n + 1) := by
  rw [log2_eq]
  exact Nat.lt_log2_self

theorem log2_unique {x k : Nat} (h1 : 2 ^ k ≤ x) (h2 : x < 2 ^ (k + 1)) : log2 x = k := by
  have hx : x ≠ 0 := by
    have := Nat.two_pow_pos k
    omega
  rw [log2_eq]
  have ha : x.log2 < k + 1 := (Nat.log2_lt hx).2 h2
  have hb : k ≤ x.log2 := (Nat.le_log2 hx).2 h1
  omega

theorem log2_mono {x y : Nat} (h : x ≤ y) : log2 x ≤ log2 y := by
  by_cases hx : x = 0
  · subst hx
    simp [log2, log2Aux]
  · have hy : y ≠ 0 := by omega
    rw [log2_eq, log2_eq]
    exact (Nat.le_log2 hy).2 (le_trans (Nat.log2_self_le hx) h)

theorem log2_lt_of_lt_pow {x k : Nat} (h : x < 2 ^ (k + 1)) : log2 x ≤ k := by
  by_cases hx : x = 0
  · subst hx
    simp [log2, log2Aux]
  · rw [log2_eq]
    have := (Nat.log2_lt hx).2 h
    omega

theorem ulpExp_mono {x y : Nat} (h : x ≤ y) : ulpExp x ≤ ulpExp y := by
  have := log2_mono h
  unfold ulpExp
  omega

theorem ulpExp_of_lt {x : Nat} (h : x < 2 ^ 53) : ulpExp x = 0 := by
  have := log2_lt_of_lt_pow (k := 52) h
  unfold ulpExp
  omega

theorem ulpExp_mul_pow {M e : Nat} (h1 : 2 ^ 52 ≤ M) (h2 : M < 2 ^ 53) :
    ulpExp (M * 2 ^ e) = e := by
  have : log2 (M * 2 ^ e) = 52 + e := by
    apply log2_unique
    · rw [pow_add]
      exact Nat.mul_le_mul_right _ h1
    · rw [show 52 + e + 1 = 53 + e by omega, pow_add]
      exact Nat.mul_lt_mul_of_lt_of_le h2 (Nat.le_refl _) (Nat.two_pow_pos _)
  unfold ulpExp
  omega

theorem pow_ulpExp_le {x : Nat} (h : x ≠ 0) : 2 ^ ulpExp x ≤ x := by
  refine le_trans ?_ (pow_log2_le h)
  exact Nat.pow_le_pow_right (by decide) (by unfold ulpExp; omega)

/-- With the unit in the last place taken from `x`, the significand `x / ulp`
has at most 53 bits. -/
theorem div_pow_ulpExp_lt (x : Nat) : x / 2 ^ ulpExp x < 2 ^ 53 := by
  rw [Nat.div_lt_iff_lt_mul (Nat.two_pow_pos _)]
  have h := lt_pow_log2 x
  refine lt_of_lt_of_le h ?_
  rw [← pow_add]
  exact Nat.pow_le_pow_right (by decide) (by unfold ulpExp; omega)

/-- Above the subnormal range the significand has exactly 53 bits. -/
theorem le_div_pow_ulpExp {x : Nat} (h : 0 < ulpExp x) : 2 ^ 52 ≤ x / 2 ^ ulpExp x := by
  have hx : x ≠ 0 := by
    intro h0
    subst h0
    simp [ulpExp, log2, log2Aux] at h
  rw [Nat.le_div_iff_mul_le (Nat.two_pow_pos _), ← pow_add]
  refine le_trans ?_ (pow_log2_le hx)
  exact Nat.pow_le_pow_right (by decide) (by unfold ulpExp at h ⊢; omega)

end Double

namespace Double

theorem div_le_rne (P D : Nat) : P / D ≤ rne P D := by
  unfold rne
  split <;> omega

theorem rne_le (P D : Nat) : rne P D ≤ P / D + 1 := by
  unfold rne
  split <;> omega

theorem rne_of_dvd {P D : Nat} (hD : 0 < D) (h : D ∣ P) : rne P D = P / D := by
  have hm : P % D = 0 := Nat.mod_eq_zero_of_dvd h
  unfold rne
  rw [hm]
  have : ¬ (D < 2 * 0 ∨ (2 * 0 = D ∧ (P / D) % 2 = 1)) := by omega
  rw [if_neg this]

/-- Rounding a quotient to the nearest integer is monotone in the numerator. -/
theorem rne_mono {P P' D : Nat} (h : P ≤ P') : rne P D ≤ rne P' D := by
  have hq : P / D ≤ P' / D := Nat.div_le_div_right h
  rcases Nat.lt_or_eq_of_le hq with hlt | heq
  · calc rne P D ≤ P / D + 1 := rne_le P D
      _ ≤ P' / D := hlt
      _ ≤ rne P' D := div_le_rne P' D
  · have h1 := Nat.div_add_mod P D
    have h2 := Nat.div_add_mod P' D
    rw [← heq] at h2
    have hr : P % D ≤ P' % D := by omega
    by_cases c : D < 2 * (P % D) ∨ (2 * (P % D) = D ∧ (P / D) % 2 = 1)
    · have c' : D < 2 * (P' % D) ∨ (2 * (P' % D) = D ∧ (P' / D) % 2 = 1) := by
        rw [← heq]
        omega
      unfold rne
      rw [if_pos c, if_pos c', heq]
    · have : rne P D = P / D := by
        unfold rne
        rw [if_neg c]
      rw [this, heq]
      exact div_le_rne P' D

theorem div_mul_pow_eq (P Q e : Nat) : P / (Q * 2 ^ e) = P / Q / 2 ^ e :=
  (Nat.div_div_eq_div_mul P Q (2 ^ e)).symm

/-- The rounded significand has at most 53 bits, or is `2^53`. -/
theorem rne_ulp_le (P Q : Nat) : rne P (Q * 2 ^ ulpExp (P / Q)) ≤ 2 ^ 53 := by
  have h1 := rne_le P (Q * 2 ^ ulpExp (P / Q))
  rw [div_mul_pow_eq] at h1
  have h2 := div_pow_ulpExp_lt (P / Q)
  omega

/-- Above the subnormal range the rounded significand has 53 bits. -/
theorem le_rne_ulp {P Q : Nat} (h : 0 < ulpExp (P / Q)) :
    2 ^ 52 ≤ rne P (Q * 2 ^ ulpExp (P / Q)) := by
  have h1 := div_le_rne P (Q * 2 ^ ulpExp (P / Q))
  rw [div_mul_pow_eq] at h1
  exact le_trans (le_div_pow_ulpExp h) h1

/-- Rounding to 53 bits is monotone. -/
theorem roundMag_mono {P P' : Nat} (Q : Nat) (h : P ≤ P') :
    roundMag P Q ≤ roundMag P' Q := by
  have hx : P / Q ≤ P' / Q := Nat.div_le_div_right h
  have he := ulpExp_mono hx
  unfold roundMag
  rcases Nat.lt_or_eq_of_le he with hlt | heq
  · calc rne P (Q * 2 ^ ulpExp (P / Q)) * 2 ^ ulpExp (P / Q)
        ≤ 2 ^ 53 * 2 ^ ulpExp (P / Q) := Nat.mul_le_mul_right _ (rne_ulp_le P Q)
      _ = 2 ^ 52 * 2 ^ (ulpExp (P / Q) + 1) := by rw [pow_succ]; ring
      _ ≤ 2 ^ 52 * 2 ^ ulpExp (P' / Q) :=
          Nat.mul_le_mul_left _ (Nat.pow_le_pow_right (by decide) hlt)
      _ ≤ rne P' (Q * 2 ^ ulpExp (P' / Q)) * 2 ^ ulpExp (P' / Q) :=
          Nat.mul_le_mul_right _ (le_rne_ulp (by omega))
  · rw [← heq]
    exact Nat.mul_le_mul_right _ (rne_mono h)

theorem roundMag_zero {Q : Nat} (hQ : 0 < Q) : roundMag 0 Q = 0 := by
  unfold roundMag
  rw [rne_of_dvd (Nat.mul_pos hQ (Nat.two_pow_pos _)) (Nat.dvd_zero _)]
  simp

/-- A quotient of at least one unit does not round to zero. -/
theorem roundMag_pos {P Q : Nat} (hQ : 0 < Q) (h : Q ≤ P) : 0 < roundMag P Q := by
  have hx : P / Q ≠ 0 := by
    have := (Nat.le_div_iff_mul_le hQ).2 (by simpa using h : 1 * Q ≤ P)
    omega
  have h1 : 1 ≤ P / Q / 2 ^ ulpExp (P / Q) :=
    (Nat.le_div_iff_mul_le (Nat.two_pow_pos _)).2 (by simpa using pow_ulpExp_le hx)
  have h2 := div_le_rne P (Q * 2 ^ ulpExp (P / Q))
  rw [div_mul_pow_eq] at h2
  unfold roundMag
  exact Nat.mul_pos (by omega) (Nat.two_pow_pos _)

/-- A magnitude with at most 53 significant bits is not changed by rounding. -/
theorem roundMag_of_dvd {m : Nat} (h : m % 2 ^ ulpExp m = 0) : roundMag m 1 = m := by
  unfold roundMag
  rw [Nat.div_one, Nat.one_mul,
    rne_of_dvd (Nat.two_pow_pos _) (Nat.dvd_of_mod_eq_zero h)]
  exact Nat.div_mul_cancel (Nat.dvd_of_mod_eq_zero h)

/-- The result of rounding has at most 53 significant bits. -/
theorem roundMag_dvd (P Q : Nat) :
    roundMag P Q % 2 ^ ulpExp (roundMag P Q) = 0 := by
  have hle := rne_ulp_le P Q
  rcases Nat.eq_zero_or_pos (ulpExp (P / Q)) with h0 | hpos
  · unfold roundMag
    rw [h0, pow_zero, Nat.mul_one, Nat.mul_one]
    rw [h0, pow_zero, Nat.mul_one] at hle
    rcases Nat.lt_or_eq_of_le hle with hlt | heq
    · rw [ulpExp_of_lt hlt, pow_zero, Nat.mod_one]
    · rw [heq]
      have : ulpExp (2 ^ 53) = 1 := by
        have := log2_unique (x := 2 ^ 53) (k := 53) (Nat.le_refl _) (by decide)
        unfold ulpExp
        omega
      rw [this]
      decide
  · have hge := le_rne_ulp hpos
    unfold roundMag
    rcases Nat.lt_or_eq_of_le hle with hlt | heq
    · rw [ulpExp_mul_pow hge hlt]
      exact Nat.mul_mod_left _ _
    · rw [heq]
      have : ulpExp (2 ^ 53 * 2 ^ ulpExp (P / Q)) = ulpExp (P / Q) + 1 := by
        have := log2_unique (x := 2 ^ 53 * 2 ^ ulpExp (P / Q)) (k := 53 + ulpExp (P / Q))
          (by rw [pow_add])
          (by rw [show 53 + ulpExp (P / Q) + 1 = 53 + (ulpExp (P / Q) + 1) by omega,
                pow_add (n := ulpExp (P / Q) + 1), pow_succ]
              have := Nat.two_pow_pos (ulpExp (P / Q))
              omega)
        unfold ulpExp at this ⊢
        omega
      rw [this]
      apply Nat.mod_eq_zero_of_dvd
      rw [pow_succ, show (2 : Nat) ^ 53 = 2 ^ 52 * 2 by decide]
      exact ⟨2 ^ 52, by ring⟩

/-- Rounding is idempotent. -/
theorem roundMag_roundMag (P Q : Nat) : roundMag (roundMag P Q) 1 = roundMag P Q :=
  roundMag_of_dvd (roundMag_dvd P Q)

/-- Rounding depends on the quotient only. -/
theorem roundMag_scale (P Q : Nat) {c : Nat} (hc : 0 < c) :
    roundMag (P * c) (Q * c) = roundMag P Q := by
  unfold roundMag
  rw [Nat.mul_div_mul_right P Q hc]
  congr 1
  have hD : Q * c * 2 ^ ulpExp (P / Q) = Q * 2 ^ ulpExp (P / Q) * c := by ring
  rw [hD]
  unfold rne
  rw [Nat.mul_div_mul_right _ _ hc, Nat.mul_mod_mul_right]
  have e1 : (Q * 2 ^ ulpExp (P / Q) * c < 2 * (P % (Q * 2 ^ ulpExp (P / Q)) * c)) ↔
      (Q * 2 ^ ulpExp (P / Q) < 2 * (P % (Q * 2 ^ ulpExp (P / Q)))) := by
    rw [← Nat.mul_assoc]
    exact Nat.mul_lt_mul_right hc
  have e2 : (2 * (P % (Q * 2 ^ ulpExp (P / Q)) * c) = Q * 2 ^ ulpExp (P / Q) * c) ↔
      (2 * (P % (Q * 2 ^ ulpExp (P / Q))) = Q * 2 ^ ulpExp (P / Q)) := by
    rw [← Nat.mul_assoc]
    exact Nat.mul_left_inj (by omega)
  simp only [e1, e2]

end Double

namespace Double

theorem zero_def : (0 : Double) = finite false 0 := rfl

theorem add_def (x y : Double) : x + y = add x y := rfl

theorem sub_def (x y : Double) : x - y = sub x y := rfl

theorem mul_def (x y : Double) : x * y = mul x y := rfl

theorem div_def (x y : Double) : x / y = div x y := rfl

theorem natCast_def (n : Nat) : ((n : Nat) : Double) = ofNat n := rfl

theorem expOfOne_eq : expOfOne = 1074 := by
  unfold expOfOne
  rfl

theorem expOverflow_eq : expOverflow = 2098 := by
  unfold expOverflow
  rfl

theorem unitsOfOne_pos : 0 < unitsOfOne := Nat.two_pow_pos _

theorem overflowMag_pos : 0 < overflowMag := Nat.two_pow_pos _

theorem add_finite_same (a : Bool) (x y : Nat) :
    finite a x + finite a y = round a (x + y) 1 := by
  show add (finite a x) (finite a y) = _
  simp [add]

theorem mul_finite (a b : Bool) (x y : Nat) :
    finite a x * finite b y = round (a != b) (x * y) unitsOfOne := rfl

theorem div_finite (a b : Bool) (x : Nat) {y : Nat} (hy : y ≠ 0) :
    finite a x / finite b y = round (a != b) (x * unitsOfOne) y := by
  show div (finite a x) (finite b y) = _
  simp [div, hy]

theorem sqrt_finite {x : Nat} (hx : x ≠ 0) :
    sqrt (finite false x) = finite false (sqrtMag (x * unitsOfOne)) := by
  simp [sqrt, hx]

theorem round_zero (s : Bool) {Q : Nat} (hQ : 0 < Q) : round s 0 Q = finite s 0 := by
  unfold round
  rw [roundMag_zero hQ, if_neg (Nat.not_le.2 overflowMag_pos)]

theorem isPlus_round (P Q : Nat) : (round false P Q).isPlus = true := by
  unfold round
  split <;> rfl

theorem round_ne_nan (s : Bool) (P Q : Nat) : round s P Q ≠ nan := by
  unfold round
  split <;> simp

/-- A quotient of at least one unit does not round to a zero. -/
theorem round_ne_zero (s s' : Bool) {P Q : Nat} (hQ : 0 < Q) (h : Q ≤ P) :
    round s P Q ≠ finite s' 0 := by
  have := roundMag_pos hQ h
  unfold round
  split
  · simp
  · intro hc
    injection hc with _ hm
    omega

/-- Rounding a magnitude that is the result of a rounding changes nothing. -/
theorem round_roundMag (s : Bool) (P Q : Nat) (h : ¬ overflowMag ≤ roundMag P Q) :
    round s (roundMag P Q) 1 = finite s (roundMag P Q) := by
  unfold round
  rw [roundMag_roundMag, if_neg h]

/-- The conversion of a size below `2^53` is exact. -/
theorem ofNat_exact {n : Nat} (h : n < 2 ^ 53) : ofNat n = finite false (n * unitsOfOne) := by
  have hlt : n * unitsOfOne < 2 ^ (52 + expOfOne + 1) := by
    rw [show 52 + expOfOne + 1 = 53 + expOfOne by omega, pow_add]
    exact Nat.mul_lt_mul_of_lt_of_le h (Nat.le_refl _) (Nat.two_pow_pos _)
  have hu : ulpExp (n * unitsOfOne) ≤ expOfOne := by
    have := log2_lt_of_lt_pow hlt
    unfold ulpExp
    omega
  have hd : (n * unitsOfOne) % 2 ^ ulpExp (n * unitsOfOne) = 0 := by
    apply Nat.mod_eq_zero_of_dvd
    apply Dvd.dvd.mul_left
    exact Nat.pow_dvd_pow 2 hu
  have hno : ¬ overflowMag ≤ n * unitsOfOne := by
    have h2 : 52 + expOfOne + 1 ≤ expOverflow := by
      rw [expOfOne_eq, expOverflow_eq]
      decide
    have h3 : (2 : Nat) ^ (52 + expOfOne + 1) ≤ overflowMag :=
      Nat.pow_le_pow_right (by decide) h2
    omega
  unfold ofNat round
  rw [roundMag_of_dvd hd, if_neg hno]

theorem sub_self_finite (a : Bool) (x : Nat) :
    finite a x - finite a x = (0 : Double) := by
  show add (finite a x) (neg (finite a x)) = finite false 0
  cases a <;> simp [add, neg]

theorem mul_zero_zero : (0 : Double) * 0 = 0 := by
  rw [zero_def, mul_finite, Nat.mul_zero]
  exact round_zero _ unitsOfOne_pos

theorem add_zero_zero : (0 : Double) + 0 = 0 := by
  rw [zero_def, add_finite_same, Nat.add_zero]
  exact round_zero _ (by decide)

theorem sqrt_zero : sqrt 0 = 0 := by
  rw [zero_def]
  simp [sqrt]

/-- Zero divided by a size of at least 1 (below `2^53`) is zero. -/
theorem zero_div_natCast {n : Nat} (h1 : 1 ≤ n) (h2 : n < 2 ^ 53) :
    (0 : Double) / ((n : Nat) : Double) = 0 := by
  rw [natCast_def, ofNat_exact h2]
  have hy : n * unitsOfOne ≠ 0 :=
    Nat.mul_ne_zero (by omega) (Nat.pos_iff_ne_zero.1 unitsOfOne_pos)
  rw [zero_def, div_finite _ _ _ hy, Nat.zero_mul]
  exact round_zero _ (Nat.pos_of_ne_zero hy)

theorem sub_ne_nan {x y : Double} (hx : x.isFinite = true) (hy : y.isFinite = true) :
    x - y ≠ nan := by
  cases x with
  | finite a u =>
    cases y with
    | finite b v =>
      show add (finite a u) (neg (finite b v)) ≠ nan
      simp only [add, neg]
      split_ifs <;> first | exact round_ne_nan _ _ _ | simp
    | inf b => simp [isFinite] at hy
    | nan => simp [isFinite] at hy
  | inf a => simp [isFinite] at hx
  | nan => simp [isFinite] at hx

/-- A square has its sign bit clear. -/
theorem isPlus_mul_self {x : Double} (hx : x ≠ nan) : (x * x).isPlus = true := by
  cases x with
  | finite a u =>
    rw [mul_finite, bne_self_eq_false]
    exact isPlus_round _ _
  | inf a =>
    show (inf (a != a)).isPlus = true
    simp [isPlus]
  | nan => exact absurd rfl hx

theorem isPlus_add {x y : Double} (hx : x.isPlus = true) (hy : y.isPlus = true) :
    (x + y).isPlus = true := by
  cases x with
  | finite a u =>
    cases y with
    | finite b v =>
      simp only [isPlus, Bool.not_eq_true'] at hx hy
      subst hx
      subst hy
      rw [add_finite_same]
      exact isPlus_round _ _
    | inf b => exact hy
    | nan => simp [isPlus] at hy
  | inf a =>
    cases y with
    | finite b v => exact hx
    | inf b =>
      simp only [isPlus, Bool.not_eq_true'] at hx hy
      subst hx
      subst hy
      rfl
    | nan => simp [isPlus] at hy
  | nan => simp [isPlus] at hx

theorem isPlus_div_natCast {x : Double} (hx : x.isPlus = true) {n : Nat}
    (h1 : 1 ≤ n) (h2 : n < 2 ^ 53) : (x / ((n : Nat) : Double)).isPlus = true := by
  rw [natCast_def, ofNat_exact h2]
  have hy : n * unitsOfOne ≠ 0 :=
    Nat.mul_ne_zero (by omega) (Nat.pos_iff_ne_zero.1 unitsOfOne_pos)
  cases x with
  | finite a u =>
    simp only [isPlus, Bool.not_eq_true'] at hx
    subst hx
    rw [div_finite _ _ _ hy]
    exact isPlus_round _ _
  | inf a =>
    simp only [isPlus, Bool.not_eq_true'] at hx
    subst hx
    rfl
  | nan => simp [isPlus] at hx

theorem isPlus_sqrt {x : Double} (hx : x.isPlus = true) : (sqrt x).isPlus = true := by
  cases x with
  | finite a u =>
    simp only [isPlus, Bool.not_eq_true'] at hx
    subst hx
    simp only [sqrt, Bool.false_eq_true, if_false]
    split_ifs <;> rfl
  | inf a =>
    simp only [isPlus, Bool.not_eq_true'] at hx
    subst hx
    rfl
  | nan => simp [isPlus] at hx

theorem le_zero_of_isPlus {x : Double} (hx : x.isPlus = true) : le 0 x = true := by
  cases x with
  | finite a u =>
    simp only [isPlus, Bool.not_eq_true'] at hx
    subst hx
    rw [zero_def]
    simp [le]
  | inf a =>
    simp only [isPlus, Bool.not_eq_true'] at hx
    subst hx
    rfl
  | nan => simp [isPlus] at hx

theorem isPlus_zero : (0 : Double).isPlus = true := rfl

end Double

namespace Double

/-- Invariant of the bit-by-bit square root. -/
theorem isqrtAux_spec (n : Nat) : ∀ (b r : Nat), r * r ≤ n → n < (r + 2 ^ b) * (r + 2 ^ b) →
    isqrtAux n b r * isqrtAux n b r ≤ n ∧
      n < (isqrtAux n b r + 1) * (isqrtAux n b r + 1) := by
  intro b
  induction b with
  | zero =>
    intro r h1 h2
    simpa [isqrtAux] using And.intro h1 h2
  | succ b ih =>
    intro r h1 h2
    unfold isqrtAux
    split
    · rename_i hc
      apply ih _ hc
      have : r + 2 ^ b + 2 ^ b = r + 2 ^ (b + 1) := by rw [pow_succ]; omega
      rw [this]
      exact h2
    · rename_i hc
      exact ih _ h1 (Nat.not_le.1 hc)

/-- The integer square root is the floor of the square root. -/
theorem isqrt_eq (n : Nat) : isqrt n = Nat.sqrt n := by
  have h2 : n < (0 + 2 ^ (log2 n / 2 + 1)) * (0 + 2 ^ (log2 n / 2 + 1)) := by
    rw [Nat.zero_add, ← pow_add]
    refine lt_of_lt_of_le (lt_pow_log2 n) ?_
    exact Nat.pow_le_pow_right (by decide) (by omega)
  have h := isqrtAux_spec n (log2 n / 2 + 1) 0 (by simp) h2
  exact Nat.eq_sqrt.2 h

theorem isqrt_pos {n : Nat} (h : 0 < n) : 0 < isqrt n := by
  rw [isqrt_eq]
  exact Nat.sqrt_pos.2 h

theorem isqrt_mono {m n : Nat} (h : m ≤ n) : isqrt m ≤ isqrt n := by
  rw [isqrt_eq, isqrt_eq]
  exact Nat.sqrt_le_sqrt h

/-- The significand of a square root is at least 1. -/
theorem sqrtMag_pos {N : Nat} (h : 0 < N) : 0 < sqrtMag N := by
  have hr : isqrt N ≠ 0 := Nat.pos_iff_ne_zero.1 (isqrt_pos h)
  have h1 : 1 ≤ isqrt N / 2 ^ ulpExp (isqrt N) :=
    (Nat.le_div_iff_mul_le (Nat.two_pow_pos _)).2 (by simpa using pow_ulpExp_le hr)
  unfold sqrtMag
  split
  · exact Nat.mul_pos (by omega) (Nat.two_pow_pos _)
  · exact Nat.mul_pos (by omega) (Nat.two_pow_pos _)

/-- The square root is `+0.0` only at `+0.0`. -/
theorem eq_zero_of_sqrt_eq_zero {x : Double} (h : sqrt x = 0) : x = 0 := by
  cases x with
  | finite a u =>
    by_cases hu : u = 0
    · subst hu
      simp only [sqrt, if_true, zero_def] at h
      rw [h, zero_def]
    · cases a with
      | true => simp [sqrt, hu, zero_def] at h
      | false =>
        rw [sqrt_finite hu, zero_def] at h
        injection h with _ hm
        have := sqrtMag_pos (Nat.mul_pos (Nat.pos_of_ne_zero hu) unitsOfOne_pos)
        omega
  | inf a => cases a <;> simp [sqrt, zero_def] at h
  | nan => simp [sqrt, zero_def] at h

/-- IEEE addition is commutative. -/
theorem add_comm (x y : Double) : x + y = y + x := by
  show add x y = add y x
  cases x with
  | finite a u =>
    cases y with
    | finite b v =>
      simp only [add]
      by_cases hab : a = b
      · subst hab
        simp [Nat.add_comm]
      · have hba : ¬ b = a := fun h => hab h.symm
        simp only [hab, hba, if_false]
        by_cases huv : u = v
        · subst huv
          simp
        · have hvu : ¬ v = u := fun h => huv h.symm
          simp only [huv, hvu, if_false]
          by_cases hlt : v < u
          · have : ¬ u < v := by omega
            simp [hlt, this]
          · have : u < v := by omega
            simp [hlt, this]
    | inf b => simp [add]
    | nan => simp [add]
  | inf a =>
    cases y with
    | finite b v => simp [add]
    | inf b =>
      simp only [add]
      by_cases hab : a = b
      · subst hab
        simp
      · have hba : ¬ b = a := fun h => hab h.symm
        simp [hab, hba]
    | nan => simp [add]
  | nan => cases y <;> simp [add]

theorem nan_mul_self : (nan : Double) * nan = nan := rfl

theorem inf_mul_self (a : Bool) : (inf a : Double) * inf a = inf false := by
  show inf (a != a) = inf false
  simp

theorem round_eq_or (s : Bool) (P Q : Nat) :
    (round s P Q = inf s ∧ overflowMag ≤ roundMag P Q) ∨
      (round s P Q = finite s (roundMag P Q) ∧ ¬ overflowMag ≤ roundMag P Q) := by
  unfold round
  by_cases h : overflowMag ≤ roundMag P Q
  · exact Or.inl ⟨by rw [if_pos h], h⟩
  · exact Or.inr ⟨by rw [if_neg h], h⟩

/-- Adding a rounded non-negative value to `+0.0` returns it. -/
theorem zero_add_round (P Q : Nat) : (0 : Double) + round false P Q = round false P Q := by
  rcases round_eq_or false P Q with ⟨h, _⟩ | ⟨h, hno⟩
  · rw [h]
    rfl
  · rw [h, zero_def, add_finite_same, Nat.zero_add]
    exact round_roundMag false P Q hno

/-- Dividing a rounded non-negative value by the size 1 returns it. -/
theorem round_div_one (P Q : Nat) :
    round false P Q / ((1 : Nat) : Double) = round false P Q := by
  rw [natCast_def, ofNat_exact (by decide), Nat.one_mul]
  rcases round_eq_or false P Q with ⟨h, _⟩ | ⟨h, hno⟩
  · rw [h]
    rfl
  · rw [h, div_finite _ _ _ (Nat.pos_iff_ne_zero.1 unitsOfOne_pos), bne_self_eq_false]
    have hs : roundMag (roundMag P Q * unitsOfOne) unitsOfOne = roundMag P Q := by
      have := roundMag_scale (roundMag P Q) 1 unitsOfOne_pos
      rw [Nat.one_mul] at this
      rw [this, roundMag_roundMag]
    unfold round
    rw [hs, if_neg hno]

/-- A square is not changed by adding it to `+0.0`. -/
theorem zero_add_mul_self (x : Double) : (0 : Double) + x * x = x * x := by
  cases x with
  | finite a u =>
    rw [mul_finite, bne_self_eq_false]
    exact zero_add_round _ _
  | inf a =>
    rw [inf_mul_self]
    rfl
  | nan => rfl

/-- A square is not changed by dividing it by the size 1. -/
theorem mul_self_div_one (x : Double) : x * x / ((1 : Nat) : Double) = x * x := by
  cases x with
  | finite a u =>
    rw [mul_finite, bne_self_eq_false]
    exact round_div_one _ _
  | inf a =>
    rw [inf_mul_self, natCast_def, ofNat_exact (by decide)]
    rfl
  | nan =>
    rw [nan_mul_self, natCast_def, ofNat_exact (by decide)]
    rfl

end Double

namespace Double

/-- The error of rounding to nearest is at most half of the spacing. -/
theorem rne_error (P : Nat) {D : Nat} (hD : 0 < D) :
    2 * (rne P D * D) ≤ 2 * P + D ∧ 2 * P ≤ 2 * (rne P D * D) + D := by
  have h1 := Nat.div_add_mod P D
  have h2 := Nat.mod_lt P hD
  have h3 : (P / D + 1) * D = D * (P / D) + D := by ring
  have h4 : P / D * D = D * (P / D) := Nat.mul_comm _ _
  unfold rne
  split
  · rw [h3]
    generalize D * (P / D) = X at *
    omega
  · rw [h4]
    generalize D * (P / D) = X at *
    omega

theorem ulpExp_of_bounds {x a : Nat} (h1 : 2 ^ 52 * 2 ^ a ≤ x) (h2 : x < 2 ^ 53 * 2 ^ a) :
    ulpExp x = a := by
  have : log2 x = 52 + a := by
    apply log2_unique
    · rw [pow_add]
      exact h1
    · rw [show 52 + a + 1 = 53 + a by omega, pow_add]
      exact h2
  unfold ulpExp
  omega

/-- The rounded square root of `N` is the 53-bit value `u = 2 * m * h` when `N`
lies strictly between the squares of `u - h` and `u + h`, `h` being half of the
unit in the last place of `u`. -/
theorem sqrtMag_eq_of_bounds {N m h a : Nat} (ha : 2 ^ a = 2 * h)
    (hm1 : 2 ^ 52 ≤ m) (hm2 : m < 2 ^ 53)
    (hlow : ∀ v, v + h = 2 * m * h → v ^ 2 < N)
    (hhigh : N < (2 * m * h + h) ^ 2)
    (hexact : m = 2 ^ 52 → (2 * m * h) ^ 2 ≤ N) :
    sqrtMag N = 2 * m * h := by
  have hh : 0 < h := by
    have := Nat.two_pow_pos a
    omega
  have hr1 : isqrt N < 2 * m * h + h := by
    rw [isqrt_eq]
    exact Nat.sqrt_lt'.2 hhigh
  have h4 : 4 ^ a = (2 * h) ^ 2 := by
    rw [← ha, ← pow_mul, show (4 : Nat) = 2 ^ 2 by norm_num, ← pow_mul, Nat.mul_comm]
  have hmh : 2 ^ 52 * h ≤ m * h := Nat.mul_le_mul_right h hm1
  have hmh2 : m * h + h ≤ 2 ^ 53 * h := by
    have : (m + 1) * h ≤ 2 ^ 53 * h := Nat.mul_le_mul_right h hm2
    have h' : (m + 1) * h = m * h + h := by ring
    omega
  have hu : 2 * m * h = 2 * (m * h) := by ring
  by_cases hcase : 2 * m * h ≤ isqrt N
  · have he : ulpExp (isqrt N) = a := by
      apply ulpExp_of_bounds
      · rw [ha]
        omega
      · rw [ha]
        omega
    have hm0 : isqrt N / 2 ^ a = m := by
      apply Nat.div_eq_of_lt_le
      · rw [ha]
        calc m * (2 * h) = 2 * m * h := by ring
          _ ≤ isqrt N := hcase
      · rw [ha]
        calc isqrt N < 2 * m * h + h := hr1
          _ ≤ (m + 1) * (2 * h) := by
            have : (m + 1) * (2 * h) = 2 * m * h + 2 * h := by ring
            omega
    unfold sqrtMag
    rw [he, hm0, h4]
    have hK : (2 * m + 1) ^ 2 * (2 * h) ^ 2 = 4 * (2 * m * h + h) ^ 2 := by ring
    rw [hK, if_neg (by omega), ha]
    ring
  · have hlt : isqrt N < 2 * m * h := Nat.lt_of_not_le hcase
    have hne : m ≠ 2 ^ 52 := by
      intro hc
      have h1 := hexact hc
      have h2 : 2 * m * h ≤ isqrt N := by
        rw [isqrt_eq]
        exact Nat.le_sqrt'.2 h1
      omega
    obtain ⟨v, hv⟩ : ∃ v, v + h = 2 * m * h := ⟨2 * m * h - h, by omega⟩
    have hvN := hlow v hv
    have hvr : v ≤ isqrt N := by
      rw [isqrt_eq]
      exact Nat.le_sqrt'.2 (Nat.le_of_lt hvN)
    have hm3 : (2 ^ 52 + 1) * h ≤ m * h := Nat.mul_le_mul_right h (by omega)
    have hm4 : (2 ^ 52 + 1) * h = 2 ^ 52 * h + h := by ring
    have he : ulpExp (isqrt N) = a := by
      apply ulpExp_of_bounds
      · rw [ha]
        omega
      · rw [ha]
        omega
    have hm0 : isqrt N / 2 ^ a = m - 1 := by
      apply Nat.div_eq_of_lt_le
      · rw [ha]
        have : (m - 1) * (2 * h) + 2 * h = 2 * m * h := by
          have : m - 1 + 1 = m := by omega
          calc (m - 1) * (2 * h) + 2 * h = (m - 1 + 1) * (2 * h) := by ring
            _ = 2 * m * h := by rw [this]; ring
        omega
      · rw [ha, show m - 1 + 1 = m by omega]
        calc isqrt N < 2 * m * h := hlt
          _ = m * (2 * h) := by ring
    unfold sqrtMag
    rw [he, hm0, h4]
    have h2m : 2 * (m - 1) + 1 + 1 = 2 * m := by omega
    have hK : (2 * (m - 1) + 1) ^ 2 * (2 * h) ^ 2 = 4 * v ^ 2 := by
      have hv2 : (2 * (m - 1) + 1) * h = v := by
        have : (2 * (m - 1) + 1) * h + h = 2 * m * h := by
          calc (2 * (m - 1) + 1) * h + h = (2 * (m - 1) + 1 + 1) * h := by ring
            _ = 2 * m * h := by rw [h2m]
        omega
      rw [← hv2]
      ring
    rw [hK, if_pos (Or.inl (by omega)), ha, show m - 1 + 1 = m by omega]
    ring

end Double

namespace Double

/-- The rounded square of the 53-bit value `u = 2 * m * h`, scaled back, lies
strictly between the squares of `u - h` and `u + h`, and it is `u ^ 2` when `u`
is a power of two. -/
theorem roundMag_sq_bounds {m h a w : Nat} (ha : 2 ^ a = 2 * h)
    (hm1 : 2 ^ 52 ≤ m) (hm2 : m < 2 ^ 53)
    (hq : 2 ^ 52 ≤ (2 * m * h) ^ 2 / 2 ^ w) :
    (∀ v, v + h = 2 * m * h → v ^ 2 < roundMag ((2 * m * h) ^ 2) (2 ^ w) * 2 ^ w) ∧
      roundMag ((2 * m * h) ^ 2) (2 ^ w) * 2 ^ w < (2 * m * h + h) ^ 2 ∧
      (m = 2 ^ 52 → (2 * m * h) ^ 2 ≤ roundMag ((2 * m * h) ^ 2) (2 ^ w) * 2 ^ w) := by
  have hh : 0 < h := by
    have := Nat.two_pow_pos a
    omega
  have hq0 : (2 * m * h) ^ 2 / 2 ^ w ≠ 0 := by
    have := Nat.two_pow_pos 52
    omega
  have hlog : ulpExp ((2 * m * h) ^ 2 / 2 ^ w) + 52 = log2 ((2 * m * h) ^ 2 / 2 ^ w) := by
    have h1 := lt_pow_log2 ((2 * m * h) ^ 2 / 2 ^ w)
    have h2 : 52 ≤ log2 ((2 * m * h) ^ 2 / 2 ^ w) := by
      by_contra hc
      have h3 : 2 ^ (log2 ((2 * m * h) ^ 2 / 2 ^ w) + 1) ≤ 2 ^ 52 :=
        Nat.pow_le_pow_right (by decide) (by omega)
      omega
    unfold ulpExp
    omega
  have hN : roundMag ((2 * m * h) ^ 2) (2 ^ w) * 2 ^ w =
      rne ((2 * m * h) ^ 2) (2 ^ w * 2 ^ ulpExp ((2 * m * h) ^ 2 / 2 ^ w)) *
        (2 ^ w * 2 ^ ulpExp ((2 * m * h) ^ 2 / 2 ^ w)) := by
    unfold roundMag
    ring
  have hD : 0 < 2 ^ w * 2 ^ ulpExp ((2 * m * h) ^ 2 / 2 ^ w) :=
    Nat.mul_pos (Nat.two_pow_pos _) (Nat.two_pow_pos _)
  have hF1 : 2 ^ w * 2 ^ ulpExp ((2 * m * h) ^ 2 / 2 ^ w) * 2 ^ 52 ≤ (2 * m * h) ^ 2 := by
    calc 2 ^ w * 2 ^ ulpExp ((2 * m * h) ^ 2 / 2 ^ w) * 2 ^ 52
        = 2 ^ w * 2 ^ (ulpExp ((2 * m * h) ^ 2 / 2 ^ w) + 52) := by rw [pow_add]; ring
      _ = 2 ^ w * 2 ^ log2 ((2 * m * h) ^ 2 / 2 ^ w) := by rw [hlog]
      _ ≤ 2 ^ w * ((2 * m * h) ^ 2 / 2 ^ w) := Nat.mul_le_mul_left _ (pow_log2_le hq0)
      _ ≤ (2 * m * h) ^ 2 := Nat.mul_div_le _ _
  have herr := rne_error ((2 * m * h) ^ 2) hD
  have hpow : m = 2 ^ 52 → (2 * m * h) ^ 2 = 2 ^ (2 * (52 + a)) := by
    intro hm
    rw [hm, Nat.mul_comm 2 (2 ^ 52), Nat.mul_assoc, ← ha, ← pow_add, ← pow_mul, Nat.mul_comm]
  have hdvd : m = 2 ^ 52 →
      2 ^ w * 2 ^ ulpExp ((2 * m * h) ^ 2 / 2 ^ w) ∣ (2 * m * h) ^ 2 := by
    intro hm
    have hle : 2 ^ w * 2 ^ ulpExp ((2 * m * h) ^ 2 / 2 ^ w) ≤ (2 * m * h) ^ 2 := by
      have := Nat.two_pow_pos 52
      calc 2 ^ w * 2 ^ ulpExp ((2 * m * h) ^ 2 / 2 ^ w)
          ≤ 2 ^ w * 2 ^ ulpExp ((2 * m * h) ^ 2 / 2 ^ w) * 2 ^ 52 :=
            Nat.le_mul_of_pos_right _ this
        _ ≤ (2 * m * h) ^ 2 := hF1
    rw [hpow hm, ← pow_add] at hle ⊢
    exact Nat.pow_dvd_pow 2 ((Nat.pow_le_pow_iff_right (by decide)).1 hle)
  rw [hN]
  generalize 2 ^ w * 2 ^ ulpExp ((2 * m * h) ^ 2 / 2 ^ w) = D at *
  refine ⟨?_, ?_, ?_⟩
  · intro v hv
    generalize rne ((2 * m * h) ^ 2) D * D = N at *
    have f2 : m * (h * (2 * m * h)) + h * (2 * m * h) ≤ 2 ^ 53 * (h * (2 * m * h)) := by
      have : (m + 1) * (h * (2 * m * h)) ≤ 2 ^ 53 * (h * (2 * m * h)) :=
        Nat.mul_le_mul_right _ hm2
      linarith
    have f3 : 2 ^ 52 * (h * h) ≤ m * (h * h) := Nat.mul_le_mul_right _ hm1
    have f8 : 1 ≤ h * h := Nat.mul_pos hh hh
    have e1 : (2 * m * h) ^ 2 = 2 * (m * (h * (2 * m * h))) := by ring
    have e2 : h * (2 * m * h) = 2 * (m * (h * h)) := by ring
    have e3 : (2 * m * h) ^ 2 = v ^ 2 + 2 * (v * h) + h * h := by
      rw [← hv]
      ring
    have e4 : h * (2 * m * h) = v * h + h * h := by
      rw [← hv]
      ring
    have hA : D + 4 * (h * h) ≤ 4 * (h * (2 * m * h)) := by
      have : D * 2 ^ 52 + 4 * 2 ^ 52 * (h * h) ≤ 4 * 2 ^ 52 * (h * (2 * m * h)) := by
        linarith
      linarith
    linarith [herr.1, herr.2]
  · generalize rne ((2 * m * h) ^ 2) D * D = N at *
    have f2 : m * (h * (2 * m * h)) + h * (2 * m * h) ≤ 2 ^ 53 * (h * (2 * m * h)) := by
      have : (m + 1) * (h * (2 * m * h)) ≤ 2 ^ 53 * (h * (2 * m * h)) :=
        Nat.mul_le_mul_right _ hm2
      linarith
    have f9 : 0 < h * (2 * m * h) := by
      have : 0 < m := lt_of_lt_of_le (Nat.two_pow_pos 52) hm1
      positivity
    have e1 : (2 * m * h) ^ 2 = 2 * (m * (h * (2 * m * h))) := by ring
    have e5 : (2 * m * h + h) ^ 2 = (2 * m * h) ^ 2 + 2 * (h * (2 * m * h)) + h * h := by ring
    have hB : D < 4 * (h * (2 * m * h)) := by
      have : D * 2 ^ 52 < 4 * 2 ^ 52 * (h * (2 * m * h)) := by
        linarith
      linarith
    have f8 : 0 ≤ h * h := Nat.zero_le _
    linarith [herr.1, herr.2]
  · intro hm
    rw [rne_of_dvd hD (hdvd hm), Nat.div_mul_cancel (hdvd hm)]

/-- The rounded square root of the rounded square of a 53-bit value `u` is `u`,
when the square is in the normal range. -/
theorem sqrtMag_roundMag_sq {u w : Nat} (hrep : u % 2 ^ ulpExp u = 0) (ha : 1 ≤ ulpExp u)
    (hq : 2 ^ 52 ≤ u ^ 2 / 2 ^ w) :
    sqrtMag (roundMag (u ^ 2) (2 ^ w) * 2 ^ w) = u := by
  have hm1 := le_div_pow_ulpExp (x := u) (by omega)
  have hm2 := div_pow_ulpExp_lt u
  have hu : u / 2 ^ ulpExp u * 2 ^ ulpExp u = u :=
    Nat.div_mul_cancel (Nat.dvd_of_mod_eq_zero hrep)
  have h2 : 2 ^ ulpExp u = 2 * 2 ^ (ulpExp u - 1) := by
    rw [← pow_succ', show ulpExp u - 1 + 1 = ulpExp u by omega]
  have hu2 : u = 2 * (u / 2 ^ ulpExp u) * 2 ^ (ulpExp u - 1) := by
    calc u = u / 2 ^ ulpExp u * 2 ^ ulpExp u := hu.symm
      _ = u / 2 ^ ulpExp u * (2 * 2 ^ (ulpExp u - 1)) := by rw [← h2]
      _ = 2 * (u / 2 ^ ulpExp u) * 2 ^ (ulpExp u - 1) := by ring
  generalize u / 2 ^ ulpExp u = m at *
  generalize 2 ^ (ulpExp u - 1) = h at *
  generalize ulpExp u = a at *
  subst hu2
  obtain ⟨b1, b2, b3⟩ := roundMag_sq_bounds h2 hm1 hm2 hq
  exact sqrtMag_eq_of_bounds h2 hm1 hm2 b1 b2 b3

end Double

namespace Double

theorem round_eq_finite {s s' : Bool} {P Q u : Nat} (h : round s P Q = finite s' u) :
    u = roundMag P Q := by
  unfold round at h
  split at h
  · exact absurd h (by simp)
  · exact (finite.inj h).2.symm

/-- A finite difference of two doubles has at most 53 significant bits. -/
theorem sub_representable {x y : Double} {s : Bool} {u : Nat} (h : x - y = finite s u) :
    u % 2 ^ ulpExp u = 0 := by
  have h' : add x (neg y) = finite s u := h
  cases x with
  | finite a p =>
    cases y with
    | finite b q =>
      simp only [neg, add] at h'
      split_ifs at h'
      · rw [round_eq_finite h']
        exact roundMag_dvd _ _
      · rw [← (finite.inj h').2]
        exact Nat.zero_mod _
      · rw [round_eq_finite h']
        exact roundMag_dvd _ _
      · rw [round_eq_finite h']
        exact roundMag_dvd _ _
    | inf b => simp [neg, add] at h'
    | nan => simp [neg, add] at h'
  | inf a =>
    cases y with
    | finite b q => simp [neg, add] at h'
    | inf b =>
      simp only [neg, add] at h'
      split_ifs at h'
    | nan => simp [neg, add] at h'
  | nan => cases y <;> simp [neg, add] at h'

theorem roundMag_two_pow (k : Nat) : roundMag (2 ^ k) 1 = 2 ^ k := by
  apply roundMag_of_dvd
  apply Nat.mod_eq_zero_of_dvd
  apply Nat.pow_dvd_pow
  have : log2 (2 ^ k) = k :=
    log2_unique (Nat.le_refl _) (Nat.pow_lt_pow_right (by decide) (Nat.lt_succ_self k))
  unfold ulpExp
  omega

/-- The square root of the square of a double `r` with at most 53 significant
bits is `fabs(r)`, when `r` is zero, infinite, or of magnitude at least `2^-511`
and below `2^511`. -/
theorem sqrt_mul_self {r : Double} (hrep : ∀ s u, r = finite s u → u % 2 ^ ulpExp u = 0)
    (hr : squareInRange r = true) : sqrt (r * r) = abs r := by
  cases r with
  | finite s u =>
    rw [mul_finite, bne_self_eq_false]
    simp only [squareInRange, decide_eq_true_eq] at hr
    rcases hr with h0 | ⟨hlo, hhi⟩
    · subst h0
      rw [Nat.mul_zero, round_zero _ unitsOfOne_pos]
      simp [sqrt, abs]
    · have hE1 : expOfOne - 511 + (expOfOne - 511) = 52 + expOfOne := by rw [expOfOne_eq]
      have hE2 : 2 ^ (expOfOne + 511) * 2 ^ (expOfOne + 511) =
          2 ^ (expOfOne + 1022) * unitsOfOne := by
        unfold unitsOfOne
        rw [← pow_add 2 (expOfOne + 511) (expOfOne + 511),
          ← pow_add 2 (expOfOne + 1022) expOfOne]
        have hexp : expOfOne + 511 + (expOfOne + 511) = expOfOne + 1022 + expOfOne := by omega
        rw [hexp]
      have hE3 : expOfOne + 1022 < expOverflow := by
        rw [expOfOne_eq, expOverflow_eq]
        decide
      have hE4 : 53 ≤ expOfOne - 511 := by
        rw [expOfOne_eq]
        decide
      have hsq : 2 ^ 52 * unitsOfOne ≤ u * u := by
        have := Nat.mul_le_mul hlo hlo
        rw [← pow_add 2 (expOfOne - 511) (expOfOne - 511), hE1, pow_add 2 52 expOfOne] at this
        exact this
      have hno : ¬ overflowMag ≤ roundMag (u * u) unitsOfOne := by
        have h1 : u * u ≤ 2 ^ (expOfOne + 1022) * unitsOfOne := by
          have := Nat.mul_le_mul (Nat.le_of_lt hhi) (Nat.le_of_lt hhi)
          rw [hE2] at this
          exact this
        have h2 := roundMag_mono unitsOfOne h1
        have h3 : roundMag (2 ^ (expOfOne + 1022) * unitsOfOne) unitsOfOne =
            2 ^ (expOfOne + 1022) := by
          have := roundMag_scale (2 ^ (expOfOne + 1022)) 1 unitsOfOne_pos
          rw [Nat.one_mul] at this
          rw [this, roundMag_two_pow]
        rw [h3] at h2
        have h4 : 2 ^ (expOfOne + 1022) < overflowMag :=
          Nat.pow_lt_pow_right (by decide) hE3
        omega
      have hpos : roundMag (u * u) unitsOfOne ≠ 0 := by
        have h1 : unitsOfOne ≤ u * u :=
          le_trans (Nat.le_mul_of_pos_left _ (Nat.two_pow_pos 52)) hsq
        exact Nat.pos_iff_ne_zero.1 (roundMag_pos unitsOfOne_pos h1)
      unfold round
      rw [if_neg hno, sqrt_finite hpos]
      have ha : 1 ≤ ulpExp u := by
        have h1 : 2 ^ 53 ≤ u :=
          le_trans (Nat.pow_le_pow_right (by decide) hE4) hlo
        have h2 := log2_mono h1
        have h3 : log2 (2 ^ 53) = 53 := log2_unique (Nat.le_refl _) (by decide)
        unfold ulpExp
        omega
      have hq : 2 ^ 52 ≤ u ^ 2 / 2 ^ expOfOne := by
        rw [Nat.le_div_iff_mul_le (Nat.two_pow_pos _), sq]
        exact hsq
      have := sqrtMag_roundMag_sq (hrep s u rfl) ha hq
      rw [sq] at this
      show finite false (sqrtMag (roundMag (u * u) (2 ^ expOfOne) * 2 ^ expOfOne)) = _
      rw [this]
      rfl
  | inf a =>
    rw [inf_mul_self]
    simp [sqrt, abs]
  | nan => simp [squareInRange] at hr

end Double

namespace Double

theorem notMinus_cases {x : Double} (h : notMinus x = true) :
    (∃ u, x = finite false u) ∨ x = inf false ∨ x = nan := by
  cases x with
  | finite a u =>
    simp only [notMinus, Bool.not_eq_true'] at h
    subst h
    exact Or.inl ⟨u, rfl⟩
  | inf a =>
    simp only [notMinus, Bool.not_eq_true'] at h
    subst h
    exact Or.inr (Or.inl rfl)
  | nan => exact Or.inr (Or.inr rfl)

theorem notMinus_round (P Q : Nat) : notMinus (round false P Q) = true := by
  unfold round
  split <;> rfl

theorem notMinus_mul_self (x : Double) : notMinus (x * x) = true := by
  cases x with
  | finite a u =>
    rw [mul_finite, bne_self_eq_false]
    exact notMinus_round _ _
  | inf a =>
    rw [inf_mul_self]
    rfl
  | nan => rfl

theorem notMinus_add {x y : Double} (hx : notMinus x = true) (hy : notMinus y = true) :
    notMinus (x + y) = true := by
  rcases notMinus_cases hx with ⟨u, rfl⟩ | rfl | rfl <;>
    rcases notMinus_cases hy with ⟨v, rfl⟩ | rfl | rfl
  · rw [add_finite_same]
    exact notMinus_round _ _
  all_goals rfl

theorem notBelow_round {k P Q : Nat} (h : 2 ^ k ≤ roundMag P Q) :
    notBelow k (round false P Q) = true := by
  rcases round_eq_or false P Q with ⟨h1, _⟩ | ⟨h1, _⟩
  · rw [h1]
    rfl
  · rw [h1]
    simp [notBelow, h]

/-- A sum with a large term is large. -/
theorem notBelow_add {k : Nat} {x y : Double} (hx : notBelow k x = true)
    (hy : notMinus y = true) : notBelow k (x + y) = true := by
  rcases notMinus_cases hy with ⟨v, rfl⟩ | rfl | rfl
  · cases x with
    | finite a u =>
      cases a with
      | true => simp [notBelow] at hx
      | false =>
        simp only [notBelow, Bool.not_false, Bool.true_and, decide_eq_true_eq] at hx
        rw [add_finite_same]
        apply notBelow_round
        have := roundMag_mono 1 (le_trans hx (Nat.le_add_right u v))
        rw [roundMag_two_pow] at this
        exact this
    | inf a => exact hx
    | nan => rfl
  · cases x with
    | finite a u => rfl
    | inf a =>
      cases a with
      | true => simp [notBelow] at hx
      | false => rfl
    | nan => rfl
  · cases x <;> rfl

/-- The sum of terms that are NaN or have a clear sign bit, added in order, is
large when one of the terms is large. -/
theorem notBelow_foldl (k : Nat) (T : Nat → Double) (l : List Nat)
    (hT : ∀ i ∈ l, notMinus (T i) = true) (acc : Double) (hacc : notMinus acc = true)
    (h : notBelow k acc = true ∨ ∃ i ∈ l, notBelow k (T i) = true) :
    notBelow k (l.foldl (fun a i => a + T i) acc) = true := by
  induction l generalizing acc with
  | nil =>
    rcases h with h | ⟨i, hi, _⟩
    · exact h
    · simp at hi
  | cons i l ih =>
    rw [List.foldl_cons]
    have hTi := hT i (List.mem_cons_self _ _)
    refine ih (fun i' hi' => hT i' (List.mem_cons_of_mem _ hi')) _ (notMinus_add hacc hTi) ?_
    rcases h with h | ⟨i', hi', h1⟩
    · exact Or.inl (notBelow_add h hTi)
    · rcases List.mem_cons.1 hi' with rfl | hmem
      · left
        rw [add_comm]
        exact notBelow_add h1 hacc
      · exact Or.inr ⟨i', hmem, h1⟩

/-- The square of a double that is not of magnitude below `2^-521` is NaN, plus
infinity or at least `2^32` units. -/
theorem notBelow_mul_self {x : Double} (h : nearZero x = false) :
    notBelow 32 (x * x) = true := by
  cases x with
  | finite a u =>
    simp only [nearZero, decide_eq_false_iff_not, Nat.not_lt] at h
    rw [mul_finite, bne_self_eq_false]
    apply notBelow_round
    have hE : expOfOne - 521 + (expOfOne - 521) = 32 + expOfOne := by rw [expOfOne_eq]
    have hsq : 2 ^ 32 * unitsOfOne ≤ u * u := by
      have := Nat.mul_le_mul h h
      rw [← pow_add 2 (expOfOne - 521) (expOfOne - 521), hE, pow_add 2 32 expOfOne] at this
      exact this
    have h2 := roundMag_mono unitsOfOne hsq
    have h3 : roundMag (2 ^ 32 * unitsOfOne) unitsOfOne = 2 ^ 32 := by
      have := roundMag_scale (2 ^ 32) 1 unitsOfOne_pos
      rw [Nat.one_mul] at this
      rw [this, roundMag_two_pow]
    rw [h3] at h2
    exact h2
  | inf a =>
    rw [inf_mul_self]
    rfl
  | nan => rfl

/-- A large sum divided by a size below `2^32` is not zero. -/
theorem div_natCast_ne_zero_of_notBelow {x : Double} {n : Nat} (hx : notBelow 32 x = true)
    (h1 : 1 ≤ n) (h2 : n < 2 ^ 32) : x / ((n : Nat) : Double) ≠ 0 := by
  rw [natCast_def, ofNat_exact (lt_trans h2 (by decide)), zero_def]
  have hy : n * unitsOfOne ≠ 0 := Nat.pos_iff_ne_zero.1 (Nat.mul_pos h1 unitsOfOne_pos)
  cases x with
  | finite a m =>
    cases a with
    | true => simp [notBelow] at hx
    | false =>
      simp only [notBelow, Bool.not_false, Bool.true_and, decide_eq_true_eq] at hx
      rw [div_finite _ _ _ hy]
      exact round_ne_zero _ _ (Nat.pos_of_ne_zero hy)
        (Nat.mul_le_mul_right _ (by omega))
  | inf a =>
    show div (inf a) (finite false (n * unitsOfOne)) ≠ finite false 0
    simp [div]
  | nan =>
    show div nan (finite false (n * unitsOfOne)) ≠ finite false 0
    simp [div]

end Double

/-- On a valid path of fewer than `2^32` pairs, a component of the result is not
zero when one of its residuals is not of magnitude below `2^-521`. -/
theorem sqrt_mean_ne_zero (estimations ground_truth : List (VectorXd Double)) (k : Nat)
    {n i : Nat} (hi : i < n) (hn : n < 2 ^ 32)
    (hr : Double.nearZero (coeff estimations i k - coeff ground_truth i k) = false) :
    Double.sqrt (sumSq estimations ground_truth k n / ((n : Nat) : Double)) ≠ 0 := by
  intro h0
  have hsum : Double.notBelow 32 (sumSq estimations ground_truth k n) = true := by
    unfold sumSq
    refine Double.notBelow_foldl 32 _ (List.range n) (fun j _ => ?_) 0 rfl
      (Or.inr ⟨i, List.mem_range.2 hi, ?_⟩)
    · exact Double.notMinus_mul_self _
    · exact Double.notBelow_mul_self hr
  exact Double.div_natCast_ne_zero_of_notBelow hsum (by omega) hn
    (Double.eq_zero_of_sqrt_eq_zero h0)

/-! ## Claims on values, settled on `Double` -/

/-- For fewer than `2^32` pairs the counter of the loop equals the number of
iterations made, the test holds before each of the `n` iterations and fails
after them. -/
theorem loop_runs {n : Nat} (h : n < 2 ^ 32) :
    (∀ k, k < n → loopCounter k = k ∧ loopTest n k = true) ∧ loopTest n n = false := by
  have hc : ∀ k, k ≤ n → loopCounter k = k := fun k hk =>
    Nat.mod_eq_of_lt (lt_of_le_of_lt hk h)
  refine ⟨fun k hk => ⟨hc k (Nat.le_of_lt hk), ?_⟩, ?_⟩
  · simp [loopTest, hc k (Nat.le_of_lt hk), hk]
  · simp [loopTest, hc n (Nat.le_refl n)]

theorem coeff_isFinite {s : List (VectorXd Double)} (h : allFinite s) (i k : Nat) :
    (coeff s i k).isFinite = true := by
  unfold coeff
  rw [List.getD_eq_getElem?_getD, List.getD_eq_getElem?_getD]
  cases hv : s[i]? with
  | none => simp [Double.zero_def, Double.isFinite]
  | some v =>
    cases hx : v[k]? with
    | none => simp [hx, Double.zero_def, Double.isFinite]
    | some x =>
      simp only [Option.getD_some, hx]
      exact h v (List.getElem?_mem hv) x (List.getElem?_mem hx)

theorem sqResidual_self_eq_zero {s : List (VectorXd Double)} (h : allFinite s) (k i : Nat) :
    sqResidual s s k i = 0 := by
  unfold sqResidual
  have hf := coeff_isFinite h i k
  cases hc : coeff s i k with
  | finite a x => rw [Double.sub_self_finite, Double.mul_zero_zero]
  | inf a => rw [hc] at hf; simp [Double.isFinite] at hf
  | nan => rw [hc] at hf; simp [Double.isFinite] at hf

theorem sumSq_self_eq_zero {s : List (VectorXd Double)} (h : allFinite s) (k n : Nat) :
    sumSq s s k n = 0 := by
  unfold sumSq
  have : ∀ l : List Nat, l.foldl (fun acc i => acc + sqResidual s s k i) (0 : Double) = 0 := by
    intro l
    induction l with
    | nil => rfl
    | cons i l ih =>
      rw [List.foldl_cons, sqResidual_self_eq_zero h, Double.add_zero_zero]
      exact ih
  exact this _

/-- On finite coefficients a sequence against itself gives the zero vector. -/
theorem CalculateRMSE_self_finite (s : List (VectorXd Double)) (cout : List String)
    (hs : dim4 s) (hfin : allFinite s) (hbound : s.length < 2 ^ 32) :
    (CalculateRMSE Double.sqrt s s cout).1 = some [0, 0, 0, 0] := by
  by_cases hv : invalidSize s s = true
  · rw [CalculateRMSE_invalid Double.sqrt s s cout hv]
  · have hv2 := (invalidSize_false_iff s s).1 (by simpa using hv)
    rw [CalculateRMSE_fold Double.sqrt s s cout rfl hv2.2 hs hs]
    simp only [sumSq_self_eq_zero hfin,
      Double.zero_div_natCast hv2.2 (lt_trans hbound (by decide)), Double.sqrt_zero]

theorem Double.toRat_zero : (0 : Double).toRat = 0 := by
  simp [Double.zero_def, Double.toRat]

theorem Double.toRat_nonneg {x : Double} (h : x.isPlus = true) :
    (0 : ℝ) ≤ ((x.toRat : ℚ) : ℝ) := by
  cases x with
  | finite a u =>
    simp only [Double.isPlus, Bool.not_eq_true'] at h
    subst h
    simp only [Double.toRat, Bool.false_eq_true, if_false, one_mul]
    have : (0 : ℚ) ≤ (u : ℚ) / (Double.unitsOfOne : ℚ) :=
      div_nonneg (Nat.cast_nonneg _) (Nat.cast_nonneg _)
    exact_mod_cast this
  | inf a => simp [Double.toRat]
  | nan => simp [Double.toRat]

/-- Two non-negative finite doubles with the same exact value are equal. -/
theorem Double.eq_of_toRat_eq {x y : Double}
    (hx1 : x.isPlus = true) (hx2 : x.isFinite = true)
    (hy1 : y.isPlus = true) (hy2 : y.isFinite = true)
    (h : ((x.toRat : ℚ) : ℝ) = ((y.toRat : ℚ) : ℝ)) : x = y := by
  cases x with
  | finite a u =>
    cases y with
    | finite b v =>
      simp only [Double.isPlus, Bool.not_eq_true'] at hx1 hy1
      subst hx1
      subst hy1
      simp only [Double.toRat, Bool.false_eq_true, if_false, one_mul] at h
      have hq : (u : ℚ) / (Double.unitsOfOne : ℚ) = (v : ℚ) / (Double.unitsOfOne : ℚ) := by
        exact_mod_cast h
      have hu : ((Double.unitsOfOne : ℕ) : ℚ) ≠ 0 := by
        exact_mod_cast (Nat.pos_iff_ne_zero.1 Double.unitsOfOne_pos)
      rw [div_left_inj' hu] at hq
      have : u = v := by exact_mod_cast hq
      rw [this]
    | inf b => simp [Double.isFinite] at hy2
    | nan => simp [Double.isFinite] at hy2
  | inf a => simp [Double.isFinite] at hx2
  | nan => simp [Double.isFinite] at hx2

/-- Counterexample to C1 as stated: for three pairs with residual `0.3` in
component 0 the code returns `0x1.3333333333334p-2`, one unit in the last place
above the exact value `0x1.3333333333333p-2` of
`sqrt ((1/3) * (0.3^2 + 0.3^2 + 0.3^2))`, the square root of the mean of the
squared residuals: the three squares, the sums, the division and the square
root are rounded. -/
theorem CalculateRMSE_closed_form_rounded :
    (CalculateRMSE Double.sqrt
        [[Double.ofBits 0x3FD3333333333333, 0, 0, 0],
         [Double.ofBits 0x3FD3333333333333, 0, 0, 0],
         [Double.ofBits 0x3FD3333333333333, 0, 0, 0]]
        [[0, 0, 0, 0], [0, 0, 0, 0], [0, 0, 0, 0]] []).1 =
      some [Double.ofBits 0x3FD3333333333334, 0, 0, 0] ∧
    (((Double.ofBits 0x3FD3333333333334).toRat : ℚ) : ℝ) ≠
      Real.sqrt ((1 / 3) *
        ∑ i in Finset.range 3,
          ((((coeff [[Double.ofBits 0x3FD3333333333333, 0, 0, 0],
              [Double.ofBits 0x3FD3333333333333, 0, 0, 0],
              [Double.ofBits 0x3FD3333333333333, 0, 0, 0]] i 0).toRat : ℚ) : ℝ) -
            (((coeff ([[0, 0, 0, 0], [0, 0, 0, 0], [0, 0, 0, 0]] : List (VectorXd Double))
              i 0).toRat : ℚ) : ℝ)) ^ 2) := by
  refine ⟨by decide!, ?_⟩
  have hx1 : (Double.ofBits 0x3FD3333333333333).isPlus = true := by decide!
  have hx2 : (Double.ofBits 0x3FD3333333333333).isFinite = true := by decide!
  have hy1 : (Double.ofBits 0x3FD3333333333334).isPlus = true := by decide!
  have hy2 : (Double.ofBits 0x3FD3333333333334).isFinite = true := by decide!
  have hxy : Double.ofBits 0x3FD3333333333334 ≠ Double.ofBits 0x3FD3333333333333 := by
    decide!
  have hv := Double.toRat_nonneg hx1
  have hne : (((Double.ofBits 0x3FD3333333333334).toRat : ℚ) : ℝ) ≠
      (((Double.ofBits 0x3FD3333333333333).toRat : ℚ) : ℝ) :=
    fun h => hxy (Double.eq_of_toRat_eq hy1 hy2 hx1 hx2 h)
  simp only [Finset.sum_range_succ, Finset.sum_range_zero, coeff, List.getD_cons_zero,
    List.getD_cons_succ, Double.toRat_zero, Rat.cast_zero, sub_zero, zero_add]
  generalize (((Double.ofBits 0x3FD3333333333333).toRat : ℚ) : ℝ) = v at hv hne ⊢
  generalize (((Double.ofBits 0x3FD3333333333334).toRat : ℚ) : ℝ) = w at hne ⊢
  have hsum : (1 / 3 : ℝ) * (v ^ 2 + v ^ 2 + v ^ 2) = v ^ 2 := by ring
  rw [hsum, Real.sqrt_sq hv]
  exact hne

theorem sumSq_one {α : Type} [Zero α] [Add α] [Sub α] [Mul α]
    (est gt : List (VectorXd α)) (k : Nat) :
    sumSq est gt k 1 = 0 + sqResidual est gt k 0 := rfl

theorem sumSq_two {α : Type} [Zero α] [Add α] [Sub α] [Mul α]
    (est gt : List (VectorXd α)) (k : Nat) :
    sumSq est gt k 2 = 0 + sqResidual est gt k 0 + sqResidual est gt k 1 := rfl

theorem getD_fin4 {α : Type} [Zero α] (a b c d : α) (F : Nat → α)
    (h0 : a = F 0) (h1 : b = F 1) (h2 : c = F 2) (h3 : d = F 3) (k : Fin 4) :
    [a, b, c, d].getD k 0 = F k := by
  subst h0 h1 h2 h3
  fin_cases k <;> rfl

/-- Claim C1, amended: for sequences of the same length `n`, `1 ≤ n < 2^32`,
whose vectors all have dimension 4, `CalculateRMSE` returns the vector whose
component `k` is `sqrt (S_k / n)`, where `S_k` is the sum of the squared
residuals `(estimations[i][k] - ground_truth[i][k])^2` added to `0` in the order
`i = 0, .., n-1`, and the difference, the square, the sums, the division and
the square root are those of the scalar arithmetic (rounded, for `double`); the
loop makes exactly `n` iterations. -/
theorem CalculateRMSE_sum_in_order {α : Type}
    [Zero α] [Add α] [Sub α] [Mul α] [Div α] [NatCast α] (sqrt : α → α)
    (estimations ground_truth : List (VectorXd α)) (cout : List String)
    (hlen : estimations.length = ground_truth.length) (hpos : 1 ≤ estimations.length)
    (hbound : estimations.length < 2 ^ 32)
    (he : dim4 estimations) (hg : dim4 ground_truth) :
    (CalculateRMSE sqrt estimations ground_truth cout).1 =
        some (List.ofFn fun k : Fin 4 =>
          sqrt (sumSq estimations ground_truth k estimations.length /
            (estimations.length : α))) ∧
      (∀ i, i < estimations.length →
        loopCounter i = i ∧ loopTest estimations.length i = true) ∧
      loopTest estimations.length estimations.length = false := by
  refine ⟨?_, loop_runs hbound⟩
  rw [CalculateRMSE_fold sqrt estimations ground_truth cout hlen hpos he hg]
  rfl

/-- Witness of the amended C1 on three pairs with residual `0.3`. -/
theorem CalculateRMSE_sum_in_order_witness :
    (([[Double.ofBits 0x3FD3333333333333, 0, 0, 0], [Double.ofBits 0x3FD3333333333333, 0, 0, 0],
          [Double.ofBits 0x3FD3333333333333, 0, 0, 0]] : List (VectorXd Double)).length =
        ([[0, 0, 0, 0], [0, 0, 0, 0], [0, 0, 0, 0]] : List (VectorXd Double)).length ∧
      1 ≤ ([[Double.ofBits 0x3FD3333333333333, 0, 0, 0],
          [Double.ofBits 0x3FD3333333333333, 0, 0, 0],
          [Double.ofBits 0x3FD3333333333333, 0, 0, 0]] : List (VectorXd Double)).length ∧
      ([[Double.ofBits 0x3FD3333333333333, 0, 0, 0], [Double.ofBits 0x3FD3333333333333, 0, 0, 0],
          [Double.ofBits 0x3FD3333333333333, 0, 0, 0]] : List (VectorXd Double)).length <
        2 ^ 32) ∧
    ((CalculateRMSE Double.sqrt
          [[Double.ofBits 0x3FD3333333333333, 0, 0, 0],
           [Double.ofBits 0x3FD3333333333333, 0, 0, 0],
           [Double.ofBits 0x3FD3333333333333, 0, 0, 0]]
          [[0, 0, 0, 0], [0, 0, 0, 0], [0, 0, 0, 0]] []).1 =
        some (List.ofFn fun k : Fin 4 =>
          Double.sqrt (sumSq
            [[Double.ofBits 0x3FD3333333333333, 0, 0, 0],
             [Double.ofBits 0x3FD3333333333333, 0, 0, 0],
             [Double.ofBits 0x3FD3333333333333, 0, 0, 0]]
            [[0, 0, 0, 0], [0, 0, 0, 0], [0, 0, 0, 0]] k
            ([[Double.ofBits 0x3FD3333333333333, 0, 0, 0],
              [Double.ofBits 0x3FD3333333333333, 0, 0, 0],
              [Double.ofBits 0x3FD3333333333333, 0, 0, 0]] : List (VectorXd Double)).length /
            (([[Double.ofBits 0x3FD3333333333333, 0, 0, 0],
              [Double.ofBits 0x3FD3333333333333, 0, 0, 0],
              [Double.ofBits 0x3FD3333333333333, 0, 0, 0]] :
                List (VectorXd Double)).length : Double))) ∧
      (∀ i, i < ([[Double.ofBits 0x3FD3333333333333, 0, 0, 0],
            [Double.ofBits 0x3FD3333333333333, 0, 0, 0],
            [Double.ofBits 0x3FD3333333333333, 0, 0, 0]] : List (VectorXd Double)).length →
        loopCounter i = i ∧
          loopTest ([[Double.ofBits 0x3FD3333333333333, 0, 0, 0],
            [Double.ofBits 0x3FD3333333333333, 0, 0, 0],
            [Double.ofBits 0x3FD3333333333333, 0, 0, 0]] : List (VectorXd Double)).length i =
            true) ∧
      loopTest ([[Double.ofBits 0x3FD3333333333333, 0, 0, 0],
          [Double.ofBits 0x3FD3333333333333, 0, 0, 0],
          [Double.ofBits 0x3FD3333333333333, 0, 0, 0]] : List (VectorXd Double)).length
        ([[Double.ofBits 0x3FD3333333333333, 0, 0, 0],
          [Double.ofBits 0x3FD3333333333333, 0, 0, 0],
          [Double.ofBits 0x3FD3333333333333, 0, 0, 0]] : List (VectorXd Double)).length =
        false) :=
  ⟨⟨by simp, by simp, by simp⟩,
    CalculateRMSE_sum_in_order Double.sqrt
      [[Double.ofBits 0x3FD3333333333333, 0, 0, 0], [Double.ofBits 0x3FD3333333333333, 0, 0, 0],
        [Double.ofBits 0x3FD3333333333333, 0, 0, 0]]
      [[0, 0, 0, 0], [0, 0, 0, 0], [0, 0, 0, 0]] [] (by simp) (by simp) (by simp)
      (by simp [dim4]) (by simp [dim4])⟩

/-- Counterexample to C3 as stated: both sequences are the one vector
`[inf,0,0,0]`; the residual `inf - inf` is NaN and the code returns
`[NaN,0,0,0]`, not the zero vector. -/
theorem CalculateRMSE_exact_match_infinite :
    (CalculateRMSE Double.sqrt [[Double.inf false, 0, 0, 0]]
      [[Double.inf false, 0, 0, 0]] []).1 = some [Double.nan, 0, 0, 0] := by
  decide!

/-- Claim C3, amended: for sequences of 4-dimensional vectors of finite
coefficients (no infinity, no NaN) with `estimations[i] = ground_truth[i]` at
every index `i` (of any length below `2^32`, zero included), `CalculateRMSE`
returns the zero vector `[0,0,0,0]`. -/
theorem CalculateRMSE_exact_match (estimations ground_truth : List (VectorXd Double))
    (cout : List String) (he : dim4 estimations) (hfin : allFinite estimations)
    (hbound : estimations.length < 2 ^ 32)
    (h : ∀ i, i < estimations.length → i < ground_truth.length →
      estimations[i]? = ground_truth[i]?) :
    (CalculateRMSE Double.sqrt estimations ground_truth cout).1 = some [0, 0, 0, 0] := by
  by_cases hv : invalidSize estimations ground_truth = true
  · rw [CalculateRMSE_invalid Double.sqrt estimations ground_truth cout hv]
  · have hv2 := (invalidSize_false_iff estimations ground_truth).1 (by simpa using hv)
    have heq : estimations = ground_truth := by
      apply List.ext_getElem?
      intro i
      by_cases hi : i < estimations.length
      · exact h i hi (by omega)
      · rw [List.getElem?_eq_none (by omega), List.getElem?_eq_none (by omega)]
    subst heq
    exact CalculateRMSE_self_finite estimations cout he hfin hbound

/-- Witness of the amended C3 on two equal sequences of two finite vectors
(`[1,2,3,1]` and `[0.3,0,3,2]`). -/
theorem CalculateRMSE_exact_match_witness :
    (dim4 ([[Double.ofBits 0x3FF0000000000000, Double.ofBits 0x4000000000000000,
          Double.ofBits 0x4008000000000000, Double.ofBits 0x3FF0000000000000],
        [Double.ofBits 0x3FD3333333333333, 0, Double.ofBits 0x4008000000000000,
          Double.ofBits 0x4000000000000000]] : List (VectorXd Double)) ∧
      allFinite [[Double.ofBits 0x3FF0000000000000, Double.ofBits 0x4000000000000000,
          Double.ofBits 0x4008000000000000, Double.ofBits 0x3FF0000000000000],
        [Double.ofBits 0x3FD3333333333333, 0, Double.ofBits 0x4008000000000000,
          Double.ofBits 0x4000000000000000]]) ∧
    (CalculateRMSE Double.sqrt
        [[Double.ofBits 0x3FF0000000000000, Double.ofBits 0x4000000000000000,
          Double.ofBits 0x4008000000000000, Double.ofBits 0x3FF0000000000000],
        [Double.ofBits 0x3FD3333333333333, 0, Double.ofBits 0x4008000000000000,
          Double.ofBits 0x4000000000000000]]
        [[Double.ofBits 0x3FF0000000000000, Double.ofBits 0x4000000000000000,
          Double.ofBits 0x4008000000000000, Double.ofBits 0x3FF0000000000000],
        [Double.ofBits 0x3FD3333333333333, 0, Double.ofBits 0x4008000000000000,
          Double.ofBits 0x4000000000000000]] []).1 = some [0, 0, 0, 0] :=
  ⟨⟨by simp [dim4], by unfold allFinite; decide!⟩,
    CalculateRMSE_exact_match _ _ [] (by simp [dim4]) (by unfold allFinite; decide!)
      (by simp) (fun _ _ _ => rfl)⟩

theorem isPlus_sumSq {est gt : List (VectorXd Double)} (k n : Nat)
    (h : ∀ i, i < n → coeff est i k - coeff gt i k ≠ Double.nan) :
    (sumSq est gt k n).isPlus = true := by
  unfold sumSq
  have : ∀ (l : List Nat) (acc : Double), (∀ i ∈ l, i < n) → acc.isPlus = true →
      (l.foldl (fun acc i => acc + sqResidual est gt k i) acc).isPlus = true := by
    intro l
    induction l with
    | nil => intro acc _ h; exact h
    | cons i l ih =>
      intro acc hl hacc
      rw [List.foldl_cons]
      refine ih _ (fun i' hi' => hl i' (List.mem_cons_of_mem _ hi'))
        (Double.isPlus_add hacc ?_)
      unfold sqResidual
      exact Double.isPlus_mul_self (h i (hl i (List.mem_cons_self _ _)))
  exact this _ _ (fun i hi => List.mem_range.1 hi) Double.isPlus_zero

/-- Counterexample to C15 as stated: with the coefficient `inf` in both
sequences the residual `inf - inf` is NaN, the code returns `[NaN,0,0,0]`, and
`0 <= NaN` is false. -/
theorem CalculateRMSE_nan_component :
    (CalculateRMSE Double.sqrt [[Double.inf false, 0, 0, 0]]
        [[Double.inf false, 0, 0, 0]] []).1 = some [Double.nan, 0, 0, 0] ∧
      Double.le 0 Double.nan = false := by
  decide!

/-- Claim C15, amended: for every input none of whose residuals
`estimations[i][k] - ground_truth[i][k]` is NaN (in particular for finite
coefficients), of invalid lengths or of fewer than `2^32` pairs of
4-dimensional vectors, every component of the vector returned by
`CalculateRMSE` is non-negative, and on the valid path the argument of the
square root, the mean of the accumulated squares, is non-negative. -/
theorem CalculateRMSE_nonneg (estimations ground_truth : List (VectorXd Double))
    (cout : List String)
    (hres : ∀ i, i < estimations.length → ∀ k : Fin 4,
      coeff estimations i k - coeff ground_truth i k ≠ Double.nan)
    (h : invalidSize estimations ground_truth = true ∨
      (estimations.length < 2 ^ 32 ∧ dim4 estimations ∧ dim4 ground_truth)) :
    ∃ rmse, (CalculateRMSE Double.sqrt estimations ground_truth cout).1 = some rmse ∧
      (∀ x ∈ rmse, Double.le 0 x = true) ∧
      (invalidSize estimations ground_truth = false →
        ∀ k : Fin 4, Double.le 0
          (sumSq estimations ground_truth k estimations.length /
            ((estimations.length : Nat) : Double)) = true) := by
  by_cases hv : invalidSize estimations ground_truth = true
  · refine ⟨[0, 0, 0, 0],
      by rw [CalculateRMSE_invalid Double.sqrt estimations ground_truth cout hv], ?_, ?_⟩
    · intro x hx
      simp only [List.mem_cons, List.mem_singleton, List.not_mem_nil, or_false, or_self] at hx
      rw [hx]
      exact Double.le_zero_of_isPlus Double.isPlus_zero
    · intro hv1
      rw [hv] at hv1
      cases hv1
  · have hv1 : invalidSize estimations ground_truth = false := by simpa using hv
    have hv2 := (invalidSize_false_iff estimations ground_truth).1 hv1
    rcases h with h | ⟨hbound, he, hg⟩
    · exact absurd h hv
    · have hmean : ∀ k : Fin 4, (sumSq estimations ground_truth k estimations.length /
          ((estimations.length : Nat) : Double)).isPlus = true := fun k =>
        Double.isPlus_div_natCast (isPlus_sumSq k _ (fun i hi => hres i hi k)) hv2.2
          (lt_trans hbound (by decide))
      rw [CalculateRMSE_fold Double.sqrt estimations ground_truth cout hv2.1 hv2.2 he hg]
      refine ⟨_, rfl, ?_, fun _ k => Double.le_zero_of_isPlus (hmean k)⟩
      intro x hx
      simp only [List.mem_cons, List.mem_singleton, List.not_mem_nil, or_false] at hx
      rcases hx with hx | hx | hx | hx <;> rw [hx]
      · exact Double.le_zero_of_isPlus (Double.isPlus_sqrt (hmean 0))
      · exact Double.le_zero_of_isPlus (Double.isPlus_sqrt (hmean 1))
      · exact Double.le_zero_of_isPlus (Double.isPlus_sqrt (hmean 2))
      · exact Double.le_zero_of_isPlus (Double.isPlus_sqrt (hmean 3))

/-- Witness of the amended C15 on three pairs with the residuals `0.3`, `inf`
and `0.3` in component 0. -/
theorem CalculateRMSE_nonneg_witness :
    (∀ i, i < 3 → ∀ k : Fin 4,
      coeff [[Double.ofBits 0x3FD3333333333333, 0, 0, 0],
          [Double.inf false, 0, 0, 0],
          [Double.ofBits 0x3FD3333333333333, 0, 0, 0]] i k -
        coeff ([[0, 0, 0, 0], [0, 0, 0, 0], [0, 0, 0, 0]] : List (VectorXd Double)) i k ≠
        Double.nan) ∧
    ∃ rmse, (CalculateRMSE Double.sqrt
        [[Double.ofBits 0x3FD3333333333333, 0, 0, 0],
         [Double.inf false, 0, 0, 0],
         [Double.ofBits 0x3FD3333333333333, 0, 0, 0]]
        [[0, 0, 0, 0], [0, 0, 0, 0], [0, 0, 0, 0]] []).1 = some rmse ∧
      (∀ x ∈ rmse, Double.le 0 x = true) ∧
      (invalidSize ([[Double.ofBits 0x3FD3333333333333, 0, 0, 0],
            [Double.inf false, 0, 0, 0],
            [Double.ofBits 0x3FD3333333333333, 0, 0, 0]] : List (VectorXd Double))
          [[0, 0, 0, 0], [0, 0, 0, 0], [0, 0, 0, 0]] = false →
        ∀ k : Fin 4, Double.le 0
          (sumSq [[Double.ofBits 0x3FD3333333333333, 0, 0, 0],
              [Double.inf false, 0, 0, 0],
              [Double.ofBits 0x3FD3333333333333, 0, 0, 0]]
            [[0, 0, 0, 0], [0, 0, 0, 0], [0, 0, 0, 0]] k
            ([[Double.ofBits 0x3FD3333333333333, 0, 0, 0],
              [Double.inf false, 0, 0, 0],
              [Double.ofBits 0x3FD3333333333333, 0, 0, 0]] : List (VectorXd Double)).length /
            ((([[Double.ofBits 0x3FD3333333333333, 0, 0, 0],
              [Double.inf false, 0, 0, 0],
              [Double.ofBits 0x3FD3333333333333, 0, 0, 0]] :
                List (VectorXd Double)).length : Nat) : Double)) = true) :=
  ⟨by decide!,
    CalculateRMSE_nonneg
      [[Double.ofBits 0x3FD3333333333333, 0, 0, 0], [Double.inf false, 0, 0, 0],
        [Double.ofBits 0x3FD3333333333333, 0, 0, 0]]
      [[0, 0, 0, 0], [0, 0, 0, 0], [0, 0, 0, 0]] [] (by decide!)
      (Or.inr ⟨by simp, by simp [dim4], by simp [dim4]⟩)⟩

/-- Counterexample to C13 as stated: the sizes are valid and the sequences differ
(the residual is `2^-600`), but the square of the residual underflows to `0` and
the code returns the zero vector. -/
theorem CalculateRMSE_zero_on_different_sequences :
    invalidSize ([[Double.ofBits 0x1A70000000000000, 0, 0, 0]] : List (VectorXd Double))
        [[0, 0, 0, 0]] = false ∧
      ([[Double.ofBits 0x1A70000000000000, 0, 0, 0]] : List (VectorXd Double)) ≠
        [[0, 0, 0, 0]] ∧
      (CalculateRMSE Double.sqrt [[Double.ofBits 0x1A70000000000000, 0, 0, 0]]
        [[0, 0, 0, 0]] []).1 = some [0, 0, 0, 0] := by
  decide!

/-- Claim C13, amended: for sequences of invalid lengths, or of fewer than `2^32`
pairs of 4-dimensional vectors, `CalculateRMSE` returns the zero vector
`[0,0,0,0]` if and only if the input is invalid (the lengths differ or a
sequence is empty) or the mean of the squared residuals, as computed in
doubles, is `0` in every component; this is the case when the coefficients are
finite and `estimations[i] = ground_truth[i]` at every index `i`; and on valid
input a zero result implies that every residual
`estimations[i][k] - ground_truth[i][k]` is of magnitude below `2^-521` (it need
not be zero). -/
theorem CalculateRMSE_zero_iff (estimations ground_truth : List (VectorXd Double))
    (cout : List String)
    (h : invalidSize estimations ground_truth = true ∨
      (estimations.length < 2 ^ 32 ∧ dim4 estimations ∧ dim4 ground_truth)) :
    ((CalculateRMSE Double.sqrt estimations ground_truth cout).1 = some [0, 0, 0, 0] ↔
        ((estimations.length ≠ ground_truth.length ∨ estimations = [] ∨ ground_truth = []) ∨
          ∀ k : Fin 4, sumSq estimations ground_truth k estimations.length /
            ((estimations.length : Nat) : Double) = 0)) ∧
      (allFinite estimations →
        (∀ i, i < estimations.length → i < ground_truth.length →
          estimations[i]? = ground_truth[i]?) →
        (CalculateRMSE Double.sqrt estimations ground_truth cout).1 = some [0, 0, 0, 0]) ∧
      ((CalculateRMSE Double.sqrt estimations ground_truth cout).1 = some [0, 0, 0, 0] →
        invalidSize estimations ground_truth = false →
        ∀ i, i < estimations.length → ∀ k : Fin 4,
          Double.nearZero (coeff estimations i k - coeff ground_truth i k) = true) := by
  by_cases hv : invalidSize estimations ground_truth = true
  · rw [CalculateRMSE_invalid Double.sqrt estimations ground_truth cout hv]
    refine ⟨⟨fun _ => Or.inl ?_, fun _ => rfl⟩, fun _ _ => rfl,
      fun _ hv1 => absurd hv (by rw [hv1]; simp)⟩
    rcases (invalidSize_iff estimations ground_truth).1 hv with h1 | h1
    · exact Or.inl h1
    · exact Or.inr (Or.inl (List.length_eq_zero.1 h1))
  · have hv1 : invalidSize estimations ground_truth = false := by simpa using hv
    have hv2 := (invalidSize_false_iff estimations ground_truth).1 hv1
    rcases h with h | ⟨hbound, he, hg⟩
    · exact absurd h hv
    · refine ⟨?_, ?_, ?_⟩
      · rw [CalculateRMSE_fold Double.sqrt estimations ground_truth cout hv2.1 hv2.2 he hg]
        simp only [Option.some.injEq, List.cons.injEq, and_true]
        constructor
        · rintro ⟨h0, h1, h2, h3⟩
          refine Or.inr (fun k => ?_)
          fin_cases k
          · exact Double.eq_zero_of_sqrt_eq_zero h0
          · exact Double.eq_zero_of_sqrt_eq_zero h1
          · exact Double.eq_zero_of_sqrt_eq_zero h2
          · exact Double.eq_zero_of_sqrt_eq_zero h3
        · rintro (hinv | hz)
          · rcases hinv with hinv | hinv | hinv
            · exact absurd hv2.1 hinv
            · rw [hinv] at hv2
              exact absurd hv2.2 (by simp)
            · rw [hinv] at hv2
              have := hv2.2
              simp [hv2.1] at this
          · have h0 := hz 0
            have h1 := hz 1
            have h2 := hz 2
            have h3 := hz 3
            simp only [Fin.isValue, Fin.val_zero, Fin.val_one, Fin.val_two] at h0 h1 h2
            have h3' : sumSq estimations ground_truth 3 estimations.length /
                ((estimations.length : Nat) : Double) = 0 := h3
            rw [h0, h1, h2, h3', Double.sqrt_zero]
            exact ⟨rfl, rfl, rfl, rfl⟩
      · intro hfin heq
        have hl : estimations = ground_truth := by
          apply List.ext_getElem?
          intro i
          by_cases hi : i < estimations.length
          · exact heq i hi (by omega)
          · rw [List.getElem?_eq_none (by omega), List.getElem?_eq_none (by omega)]
        subst hl
        exact CalculateRMSE_self_finite estimations cout he hfin hbound
      · rw [CalculateRMSE_fold Double.sqrt estimations ground_truth cout hv2.1 hv2.2 he hg]
        intro hz _ i hi k
        by_contra hr
        have hcomp := congrArg (fun l : List Double => l.getD (k : Nat) 0) (Option.some.inj hz)
        simp only at hcomp
        rw [getD_fin4 _ _ _ _
          (fun k => Double.sqrt (sumSq estimations ground_truth k estimations.length /
            ((estimations.length : Nat) : Double))) rfl rfl rfl rfl k,
          getD_fin4 (0 : Double) 0 0 0 (fun _ => 0) rfl rfl rfl rfl k] at hcomp
        exact sqrt_mean_ne_zero estimations ground_truth k hi hbound (by simpa using hr) hcomp

/-- Witness of the amended C13 on one pair with residual `2^-600`. -/
theorem CalculateRMSE_zero_iff_witness :
    (invalidSize ([[Double.ofBits 0x1A70000000000000, 0, 0, 0]] : List (VectorXd Double))
        [[0, 0, 0, 0]] = true ∨
      (([[Double.ofBits 0x1A70000000000000, 0, 0, 0]] : List (VectorXd Double)).length <
          2 ^ 32 ∧
        dim4 ([[Double.ofBits 0x1A70000000000000, 0, 0, 0]] : List (VectorXd Double)) ∧
        dim4 ([[0, 0, 0, 0]] : List (VectorXd Double)))) ∧
    ((CalculateRMSE Double.sqrt [[Double.ofBits 0x1A70000000000000, 0, 0, 0]]
        [[0, 0, 0, 0]] []).1 = some [0, 0, 0, 0] ↔
      ((([[Double.ofBits 0x1A70000000000000, 0, 0, 0]] : List (VectorXd Double)).length ≠
            ([[0, 0, 0, 0]] : List (VectorXd Double)).length ∨
          ([[Double.ofBits 0x1A70000000000000, 0, 0, 0]] : List (VectorXd Double)) = [] ∨
          ([[0, 0, 0, 0]] : List (VectorXd Double)) = []) ∨
        ∀ k : Fin 4,
          sumSq [[Double.ofBits 0x1A70000000000000, 0, 0, 0]] [[0, 0, 0, 0]] k
              ([[Double.ofBits 0x1A70000000000000, 0, 0, 0]] :
                List (VectorXd Double)).length /
            ((([[Double.ofBits 0x1A70000000000000, 0, 0, 0]] :
                List (VectorXd Double)).length : Nat) : Double) = 0)) :=
  ⟨Or.inr ⟨by simp, by simp [dim4], by simp [dim4]⟩,
    (CalculateRMSE_zero_iff [[Double.ofBits 0x1A70000000000000, 0, 0, 0]] [[0, 0, 0, 0]] []
      (Or.inr ⟨by simp, by simp [dim4], by simp [dim4]⟩)).1⟩

/-- Counterexample to C10 as stated: for the single pair with residual `2^600`
in component 0 the square overflows and the code returns `[inf,0,0,0]`, not the
absolute value `2^600` of the residual; for the residual `2^-600` the square
underflows and the code returns `[0,0,0,0]`. -/
theorem CalculateRMSE_single_pair_out_of_range :
    (CalculateRMSE Double.sqrt [[Double.ofBits 0x6570000000000000, 0, 0, 0]]
        [[0, 0, 0, 0]] []).1 = some [Double.inf false, 0, 0, 0] ∧
      Double.ofBits 0x6570000000000000 - 0 = Double.ofBits 0x6570000000000000 ∧
      Double.inf false ≠ Double.ofBits 0x6570000000000000 ∧
      (CalculateRMSE Double.sqrt [[Double.ofBits 0x1A70000000000000, 0, 0, 0]]
        [[0, 0, 0, 0]] []).1 = some [0, 0, 0, 0] ∧
      Double.ofBits 0x1A70000000000000 - 0 = Double.ofBits 0x1A70000000000000 ∧
      (0 : Double) ≠ Double.ofBits 0x1A70000000000000 := by
  decide!

/-- Claim C10, amended: for the single pair `[1,1,1,1]`, `[0,0,0,0]`
`CalculateRMSE` returns `[1,1,1,1]`; for every single pair of 4-dimensional
vectors it returns, component by component, the square root of the square of
the residual `estimations[0] - ground_truth[0]`, both computed in doubles; and
this is the absolute value of the residual in every component when each
residual is zero, infinite, or of magnitude at least `2^-511` and below `2^511`
(its square neither overflows nor falls below the normal range). -/
theorem CalculateRMSE_single_pair (e0 e1 e2 e3 g0 g1 g2 g3 : Double) (cout : List String) :
    CalculateRMSE Double.sqrt
        [[Double.ofBits 0x3FF0000000000000, Double.ofBits 0x3FF0000000000000,
          Double.ofBits 0x3FF0000000000000, Double.ofBits 0x3FF0000000000000]]
        [[0, 0, 0, 0]] [] =
      (some [Double.ofBits 0x3FF0000000000000, Double.ofBits 0x3FF0000000000000,
        Double.ofBits 0x3FF0000000000000, Double.ofBits 0x3FF0000000000000], []) ∧
      CalculateRMSE Double.sqrt [[e0, e1, e2, e3]] [[g0, g1, g2, g3]] cout =
        (some [Double.sqrt ((e0 - g0) * (e0 - g0)), Double.sqrt ((e1 - g1) * (e1 - g1)),
          Double.sqrt ((e2 - g2) * (e2 - g2)), Double.sqrt ((e3 - g3) * (e3 - g3))], cout) ∧
      (Double.squareInRange (e0 - g0) = true → Double.squareInRange (e1 - g1) = true →
        Double.squareInRange (e2 - g2) = true → Double.squareInRange (e3 - g3) = true →
        CalculateRMSE Double.sqrt [[e0, e1, e2, e3]] [[g0, g1, g2, g3]] cout =
          (some [Double.abs (e0 - g0), Double.abs (e1 - g1), Double.abs (e2 - g2),
            Double.abs (e3 - g3)], cout)) := by
  have hgen : CalculateRMSE Double.sqrt [[e0, e1, e2, e3]] [[g0, g1, g2, g3]] cout =
      (some [Double.sqrt ((e0 - g0) * (e0 - g0)), Double.sqrt ((e1 - g1) * (e1 - g1)),
        Double.sqrt ((e2 - g2) * (e2 - g2)), Double.sqrt ((e3 - g3) * (e3 - g3))], cout) := by
    rw [CalculateRMSE_fold Double.sqrt [[e0, e1, e2, e3]] [[g0, g1, g2, g3]] cout rfl
      (by simp) (by simp [dim4]) (by simp [dim4])]
    simp only [List.length_singleton, sumSq_one, sqResidual, coeff, List.getD_cons_zero,
      List.getD_cons_succ, Double.zero_add_mul_self, Double.mul_self_div_one]
  refine ⟨by decide!, hgen, fun h0 h1 h2 h3 => ?_⟩
  rw [hgen, Double.sqrt_mul_self (fun _ _ h => Double.sub_representable h) h0,
    Double.sqrt_mul_self (fun _ _ h => Double.sub_representable h) h1,
    Double.sqrt_mul_self (fun _ _ h => Double.sub_representable h) h2,
    Double.sqrt_mul_self (fun _ _ h => Double.sub_representable h) h3]

/-- Witness of the amended C10: the pair `[3,1,2,1]`, `[1,1,0,3]` with the
residuals `2`, `0`, `2`, `-2`. -/
theorem CalculateRMSE_single_pair_witness :
    (Double.squareInRange (Double.ofBits 0x4008000000000000 - Double.ofBits 0x3FF0000000000000) =
        true ∧
      Double.squareInRange (Double.ofBits 0x3FF0000000000000 - Double.ofBits 0x3FF0000000000000) =
        true ∧
      Double.squareInRange (Double.ofBits 0x4000000000000000 - 0) = true ∧
      Double.squareInRange (Double.ofBits 0x3FF0000000000000 - Double.ofBits 0x4008000000000000) =
        true) ∧
    CalculateRMSE Double.sqrt
        [[Double.ofBits 0x4008000000000000, Double.ofBits 0x3FF0000000000000,
          Double.ofBits 0x4000000000000000, Double.ofBits 0x3FF0000000000000]]
        [[Double.ofBits 0x3FF0000000000000, Double.ofBits 0x3FF0000000000000, 0,
          Double.ofBits 0x4008000000000000]] [] =
      (some [Double.abs (Double.ofBits 0x4008000000000000 - Double.ofBits 0x3FF0000000000000),
        Double.abs (Double.ofBits 0x3FF0000000000000 - Double.ofBits 0x3FF0000000000000),
        Double.abs (Double.ofBits 0x4000000000000000 - 0),
        Double.abs (Double.ofBits 0x3FF0000000000000 - Double.ofBits 0x4008000000000000)], []) :=
  ⟨⟨by decide!, by decide!, by decide!, by decide!⟩,
    (CalculateRMSE_single_pair (Double.ofBits 0x4008000000000000)
      (Double.ofBits 0x3FF0000000000000) (Double.ofBits 0x4000000000000000)
      (Double.ofBits 0x3FF0000000000000) (Double.ofBits 0x3FF0000000000000)
      (Double.ofBits 0x3FF0000000000000) 0 (Double.ofBits 0x4008000000000000) []).2.2
      (by decide!) (by decide!) (by decide!) (by decide!)⟩

theorem sqResidual_reorder {α : Type} [Zero α] [Sub α] [Mul α] {n : Nat} (p : Fin n → Fin n)
    (est gt : List (VectorXd α)) (he : est.length = n) (hg : gt.length = n)
    (k : Nat) (i : Fin n) :
    sqResidual (reorder p est he) (reorder p gt hg) k i = sqResidual est gt k (p i) := by
  simp only [sqResidual, coeff_reorder]

theorem perm_fin_two (p : Equiv.Perm (Fin 2)) :
    (p 0 = 0 ∧ p 1 = 1) ∨ (p 0 = 1 ∧ p 1 = 0) := by
  have h01 : p 0 ≠ p 1 := fun h => absurd (p.injective h) (by decide)
  have h0 : p 0 = 0 ∨ p 0 = 1 := by
    rcases Fin.exists_fin_two.1 ⟨p 0, rfl⟩ with h | h
    · exact Or.inl h
    · exact Or.inr h
  have h1 : p 1 = 0 ∨ p 1 = 1 := by
    rcases Fin.exists_fin_two.1 ⟨p 1, rfl⟩ with h | h
    · exact Or.inl h
    · exact Or.inr h
  rcases h0 with h0 | h0 <;> rcases h1 with h1 | h1
  · exact absurd (h0.trans h1.symm) h01
  · exact Or.inl ⟨h0, h1⟩
  · exact Or.inr ⟨h0, h1⟩
  · exact absurd (h0.trans h1.symm) h01

theorem reorder_swap_triple {β : Type} (a b c : β) :
    reorder (Equiv.swap (0 : Fin 3) 2) [a, b, c] rfl = [c, b, a] := by
  rfl

/-- Counterexample to C6 as stated: three pairs with the residuals `0.48`, `0.48`
and `2.4` in component 0.  With the first and the last pair exchanged in both
sequences the same three squares are added in another order, the rounded sums
differ, and the result changes from `0x1.70a3d70a3d70ap+0` to
`0x1.70a3d70a3d70bp+0`. -/
theorem CalculateRMSE_reorder_both_rounded :
    reorder (Equiv.swap (0 : Fin 3) 2)
        ([[Double.ofBits 0x3FDEB851EB851EB8, 0, 0, 0], [Double.ofBits 0x3FDEB851EB851EB8, 0, 0, 0],
          [Double.ofBits 0x4003333333333333, 0, 0, 0]] : List (VectorXd Double)) rfl =
        [[Double.ofBits 0x4003333333333333, 0, 0, 0], [Double.ofBits 0x3FDEB851EB851EB8, 0, 0, 0],
          [Double.ofBits 0x3FDEB851EB851EB8, 0, 0, 0]] ∧
      reorder (Equiv.swap (0 : Fin 3) 2)
        ([[0, 0, 0, 0], [0, 0, 0, 0], [0, 0, 0, 0]] : List (VectorXd Double)) rfl =
        [[0, 0, 0, 0], [0, 0, 0, 0], [0, 0, 0, 0]] ∧
      (CalculateRMSE Double.sqrt
        [[Double.ofBits 0x3FDEB851EB851EB8, 0, 0, 0], [Double.ofBits 0x3FDEB851EB851EB8, 0, 0, 0],
          [Double.ofBits 0x4003333333333333, 0, 0, 0]]
        [[0, 0, 0, 0], [0, 0, 0, 0], [0, 0, 0, 0]] []).1 =
        some [Double.ofBits 0x3FF70A3D70A3D70A, 0, 0, 0] ∧
      (CalculateRMSE Double.sqrt
        [[Double.ofBits 0x4003333333333333, 0, 0, 0], [Double.ofBits 0x3FDEB851EB851EB8, 0, 0, 0],
          [Double.ofBits 0x3FDEB851EB851EB8, 0, 0, 0]]
        [[0, 0, 0, 0], [0, 0, 0, 0], [0, 0, 0, 0]] []).1 =
        some [Double.ofBits 0x3FF70A3D70A3D70B, 0, 0, 0] ∧
      Double.ofBits 0x3FF70A3D70A3D70A ≠ Double.ofBits 0x3FF70A3D70A3D70B :=
  ⟨reorder_swap_triple _ _ _, reorder_swap_triple _ _ _, by decide!, by decide!, by decide!⟩

/-- Claim C6, amended: for sequences of 4-dimensional vectors of equal length
`n`, `1 ≤ n ≤ 2`, and every permutation `p` of the indices, reordering both
sequences by `p` leaves the result of `CalculateRMSE` unchanged (two squares
are added in either order with the same rounded sum; from three pairs on the
rounded sum depends on the order). -/
theorem CalculateRMSE_reorder_both (n : Nat) (estimations ground_truth : List (VectorXd Double))
    (cout : List String)
    (he_len : estimations.length = n) (hg_len : ground_truth.length = n)
    (hpos : 1 ≤ n) (hn : n ≤ 2)
    (he : dim4 estimations) (hg : dim4 ground_truth) (p : Equiv.Perm (Fin n)) :
    CalculateRMSE Double.sqrt (reorder p estimations he_len) (reorder p ground_truth hg_len)
        cout =
      CalculateRMSE Double.sqrt estimations ground_truth cout := by
  have key : ∀ k : Nat, sumSq (reorder p estimations he_len) (reorder p ground_truth hg_len) k n =
      sumSq estimations ground_truth k n := by
    intro k
    have hnn : n = 1 ∨ n = 2 := by omega
    rcases hnn with rfl | rfl
    · have h0 := sqResidual_reorder p estimations ground_truth he_len hg_len k 0
      rw [Subsingleton.elim (p 0) 0] at h0
      simp only [Fin.isValue, Fin.val_zero] at h0
      rw [sumSq_one, sumSq_one, h0]
    · have h0 := sqResidual_reorder p estimations ground_truth he_len hg_len k 0
      have h1 := sqResidual_reorder p estimations ground_truth he_len hg_len k 1
      rw [sumSq_two, sumSq_two]
      rcases perm_fin_two p with ⟨hp0, hp1⟩ | ⟨hp0, hp1⟩
      · rw [hp0] at h0
        rw [hp1] at h1
        simp only [Fin.isValue, Fin.val_zero, Fin.val_one] at h0 h1
        rw [h0, h1]
      · rw [hp0] at h0
        rw [hp1] at h1
        simp only [Fin.isValue, Fin.val_zero, Fin.val_one] at h0 h1
        rw [h0, h1]
        simp only [sqResidual, Double.zero_add_mul_self]
        exact Double.add_comm _ _
  rw [CalculateRMSE_fold Double.sqrt estimations ground_truth cout (by omega) (by omega) he hg,
    CalculateRMSE_fold Double.sqrt (reorder p estimations he_len)
      (reorder p ground_truth hg_len) cout (by simp [length_reorder])
      (by simp [length_reorder]; omega)
      (dim4_reorder p estimations he_len he) (dim4_reorder p ground_truth hg_len hg)]
  simp only [length_reorder, he_len, key]

/-- Witness of the amended C6: two pairs, both sequences swapped. -/
theorem CalculateRMSE_reorder_both_witness :
    (1 ≤ 2 ∧ 2 ≤ 2 ∧
      dim4 ([[Double.ofBits 0x3FDEB851EB851EB8, 0, 0, 0],
        [Double.ofBits 0x4003333333333333, 0, 0, 0]] : List (VectorXd Double)) ∧
      dim4 ([[Double.ofBits 0x3FF0000000000000, 0, 0, 0], [0, 0, 0, 0]] :
        List (VectorXd Double))) ∧
    CalculateRMSE Double.sqrt
        (reorder (Equiv.swap (0 : Fin 2) 1)
          ([[Double.ofBits 0x3FDEB851EB851EB8, 0, 0, 0],
            [Double.ofBits 0x4003333333333333, 0, 0, 0]] : List (VectorXd Double)) rfl)
        (reorder (Equiv.swap (0 : Fin 2) 1)
          ([[Double.ofBits 0x3FF0000000000000, 0, 0, 0], [0, 0, 0, 0]] :
            List (VectorXd Double)) rfl) [] =
      CalculateRMSE Double.sqrt
        [[Double.ofBits 0x3FDEB851EB851EB8, 0, 0, 0], [Double.ofBits 0x4003333333333333, 0, 0, 0]]
        [[Double.ofBits 0x3FF0000000000000, 0, 0, 0], [0, 0, 0, 0]] [] :=
  ⟨⟨by decide, by decide, by simp [dim4], by simp [dim4]⟩,
    CalculateRMSE_reorder_both 2
      [[Double.ofBits 0x3FDEB851EB851EB8, 0, 0, 0], [Double.ofBits 0x4003333333333333, 0, 0, 0]]
      [[Double.ofBits 0x3FF0000000000000, 0, 0, 0], [0, 0, 0, 0]] [] rfl rfl
      (by decide) (by decide) (by simp [dim4]) (by simp [dim4]) (Equiv.swap 0 1)⟩

namespace Double

theorem roundMag_unitsOfOne : roundMag unitsOfOne 1 = unitsOfOne := by
  have h := ofNat_exact (show 1 < 2 ^ 53 by decide)
  unfold ofNat round at h
  rw [Nat.one_mul] at h
  split at h
  · exact absurd h (by simp)
  · exact finite.inj h |>.2

theorem atLeastOne_round {P : Nat} (h : unitsOfOne ≤ P) :
    atLeastOne (round false P 1) = true := by
  rcases round_eq_or false P 1 with ⟨h1, _⟩ | ⟨h1, _⟩
  · rw [h1]
    rfl
  · rw [h1]
    have := roundMag_mono 1 h
    rw [roundMag_unitsOfOne] at this
    simp [atLeastOne, this]

theorem atLeastOne_add {x : Double} {m : Nat} (hx : x = 0 ∨ atLeastOne x = true)
    (hm : atLeastOne x = true ∨ unitsOfOne ≤ m) :
    atLeastOne (x + finite false m) = true := by
  cases x with
  | finite a u =>
    have ha : a = false := by
      rcases hx with hx | hx
      · rw [zero_def] at hx
        exact (finite.inj hx).1
      · cases a
        · rfl
        · simp [atLeastOne] at hx
    subst ha
    rw [add_finite_same]
    apply atLeastOne_round
    rcases hm with hm | hm
    · simp only [atLeastOne, Bool.not_false, Bool.true_and, decide_eq_true_eq] at hm
      omega
    · omega
  | inf a =>
    rcases hx with hx | hx
    · rw [zero_def] at hx
      exact absurd hx (by simp)
    · exact hx
  | nan =>
    rcases hx with hx | hx
    · rw [zero_def] at hx
      exact absurd hx (by simp)
    · simp [atLeastOne] at hx

/-- A sum of terms that are each `0.0` or `1.0`, added in order: the sum is `0.0`
or at least `1.0`, and it is at least `1.0` when one of the terms is `1.0`. -/
theorem atLeastOne_foldl (T : Nat → Double) (l : List Nat)
    (hT : ∀ i ∈ l, T i = 0 ∨ T i = one) (acc : Double)
    (hacc : acc = 0 ∨ atLeastOne acc = true) :
    (l.foldl (fun a i => a + T i) acc = 0 ∨
        atLeastOne (l.foldl (fun a i => a + T i) acc) = true) ∧
      ((atLeastOne acc = true ∨ ∃ i ∈ l, T i = one) →
        atLeastOne (l.foldl (fun a i => a + T i) acc) = true) := by
  induction l generalizing acc with
  | nil =>
    refine ⟨hacc, fun h => ?_⟩
    rcases h with h | ⟨i, hi, _⟩
    · exact h
    · simp at hi
  | cons i l ih =>
    have hTl : ∀ i' ∈ l, T i' = 0 ∨ T i' = one := fun i' hi' =>
      hT i' (List.mem_cons_of_mem _ hi')
    have hone : T i = one → atLeastOne (acc + T i) = true := by
      intro h
      rw [h]
      exact atLeastOne_add hacc (Or.inr (Nat.le_refl _))
    have hkeep : atLeastOne acc = true → atLeastOne (acc + T i) = true := by
      intro h
      rcases hT i (List.mem_cons_self _ _) with h0 | h1
      · rw [h0, zero_def]
        exact atLeastOne_add hacc (Or.inl h)
      · exact hone h1
    have hacc2 : acc + T i = 0 ∨ atLeastOne (acc + T i) = true := by
      rcases hT i (List.mem_cons_self _ _) with h0 | h1
      · rcases hacc with ha | ha
        · rw [ha, h0]
          exact Or.inl add_zero_zero
        · exact Or.inr (hkeep ha)
      · exact Or.inr (hone h1)
    have := ih hTl (acc + T i) hacc2
    rw [List.foldl_cons]
    refine ⟨this.1, fun h => this.2 ?_⟩
    rcases h with h | ⟨i', hi', h1⟩
    · exact Or.inl (hkeep h)
    · rcases List.mem_cons.1 hi' with rfl | hmem
      · exact Or.inl (hone h1)
      · exact Or.inr ⟨i', hmem, h1⟩

/-- A sum of at least `1.0` divided by a size below `2^32` is not zero. -/
theorem div_natCast_ne_zero {x : Double} {n : Nat} (hx : atLeastOne x = true)
    (h1 : 1 ≤ n) (h2 : n < 2 ^ 32) : x / ((n : Nat) : Double) ≠ 0 := by
  rw [natCast_def, ofNat_exact (lt_trans h2 (by decide)), zero_def]
  have hu : 2 ^ 32 ≤ unitsOfOne := by
    unfold unitsOfOne
    exact Nat.pow_le_pow_right (by decide) (by rw [expOfOne_eq]; decide)
  have hy : n * unitsOfOne ≠ 0 := Nat.pos_iff_ne_zero.1 (Nat.mul_pos h1 unitsOfOne_pos)
  cases x with
  | finite a m =>
    cases a with
    | true => simp [atLeastOne] at hx
    | false =>
      simp only [atLeastOne, Bool.not_false, Bool.true_and, decide_eq_true_eq] at hx
      rw [div_finite _ _ _ hy]
      exact round_ne_zero _ _ (Nat.pos_of_ne_zero hy)
        (Nat.mul_le_mul_right _ (by omega))
  | inf a =>
    show div (inf a) (finite false (n * unitsOfOne)) ≠ finite false 0
    simp [div]
  | nan => simp [atLeastOne] at hx

end Double

theorem length_unitAt (n : Nat) (j : Fin n) : (unitAt n j).length = n := by
  simp [unitAt]

theorem dim4_unitAt (n : Nat) (j : Fin n) : dim4 (unitAt n j) := by
  intro v hv
  simp only [unitAt, List.mem_ofFn, Set.mem_range] at hv
  obtain ⟨i, rfl⟩ := hv
  split <;> rfl

theorem allFinite_unitAt (n : Nat) (j : Fin n) : allFinite (unitAt n j) := by
  intro v hv x hx
  simp only [unitAt, List.mem_ofFn, Set.mem_range] at hv
  obtain ⟨i, rfl⟩ := hv
  split at hx
  · simp only [List.mem_cons, List.mem_singleton, List.not_mem_nil, or_false] at hx
    rcases hx with rfl | rfl | rfl | rfl <;> rfl
  · simp only [List.mem_cons, List.mem_singleton, List.not_mem_nil, or_false] at hx
    rcases hx with rfl | rfl | rfl | rfl <;> rfl

theorem coeff_unitAt (n : Nat) (j i : Fin n) :
    coeff (unitAt n j) i 0 = if i = j then Double.one else 0 := by
  have h : (unitAt n j)[(i : Nat)]? =
      some (if i = j then [Double.one, 0, 0, 0] else [0, 0, 0, 0]) := by
    simp [unitAt, List.getElem?_ofFn]
  rw [coeff_of_getElem? h]
  split <;> rfl

theorem sqResidual_unit_cases :
    (Double.one - 0) * (Double.one - 0) = Double.one ∧
      ((0 : Double) - Double.one) * ((0 : Double) - Double.one) = Double.one ∧
      (Double.one - Double.one) * (Double.one - Double.one) = (0 : Double) ∧
      ((0 : Double) - 0) * ((0 : Double) - 0) = (0 : Double) := by
  decide!

/-- A squared residual of the unit sequence against itself reordered is `0.0` or
`1.0`, and it is `1.0` at the index `j` when `p` moves `j`. -/
theorem sqResidual_unitAt_reorder (n : Nat) (j : Fin n) (p : Fin n → Fin n) (i : Fin n) :
    (sqResidual (reorder p (unitAt n j) (length_unitAt n j)) (unitAt n j) 0 i = 0 ∨
        sqResidual (reorder p (unitAt n j) (length_unitAt n j)) (unitAt n j) 0 i =
          Double.one) ∧
      (p j ≠ j → i = j →
        sqResidual (reorder p (unitAt n j) (length_unitAt n j)) (unitAt n j) 0 i =
          Double.one) := by
  unfold sqResidual
  rw [coeff_reorder, coeff_unitAt, coeff_unitAt]
  obtain ⟨h1, h2, h3, h4⟩ := sqResidual_unit_cases
  by_cases ha : p i = j <;> by_cases hb : i = j
  · rw [if_pos ha, if_pos hb, h3]
    exact ⟨Or.inl rfl, fun hne _ => absurd (hb ▸ ha) hne⟩
  · rw [if_pos ha, if_neg hb, h1]
    exact ⟨Or.inr rfl, fun _ h => absurd h hb⟩
  · rw [if_neg ha, if_pos hb, h2]
    exact ⟨Or.inr rfl, fun _ _ => rfl⟩
  · rw [if_neg ha, if_neg hb, h4]
    exact ⟨Or.inl rfl, fun _ h => absurd h hb⟩

/-- Counterexample to C11 as stated: the swap of the two indices is not the
identity and it does change the estimation sequence `[[1,0,0,0],[3,0,0,0]]`,
yet against `ground_truth = [[2,0,0,0],[2,0,0,0]]` the result is the same. -/
theorem CalculateRMSE_reorder_one_same_result :
    Equiv.swap (0 : Fin 2) 1 ≠ 1 ∧
      reorder (Equiv.swap (0 : Fin 2) 1) ([[1, 0, 0, 0], [3, 0, 0, 0]] : List (VectorXd ℝ)) rfl ≠
        [[1, 0, 0, 0], [3, 0, 0, 0]] ∧
      CalculateRMSE Real.sqrt
          (reorder (Equiv.swap (0 : Fin 2) 1)
            ([[1, 0, 0, 0], [3, 0, 0, 0]] : List (VectorXd ℝ)) rfl)
          [[2, 0, 0, 0], [2, 0, 0, 0]] [] =
        CalculateRMSE Real.sqrt [[1, 0, 0, 0], [3, 0, 0, 0]] [[2, 0, 0, 0], [2, 0, 0, 0]] [] := by
  refine ⟨by decide, ?_, ?_⟩
  · rw [reorder_swap_pair]
    norm_num
  · rw [reorder_swap_pair]
    simp [CalculateRMSE, invalidSize, accumulate, vsub, arrayMul, addAssign, divScalar, arraySqrt]
    norm_num

/-- Claim C11, amended: reordering only one sequence can change the result.  For
every length `n < 2^32` and every permutation `p` of the indices other than the
identity there are sequences of `n` 4-dimensional vectors with finite
coefficients for which `CalculateRMSE` of the estimations reordered by `p` and
the ground truth differs from `CalculateRMSE` of the two sequences as given:
with `p j ≠ j`, both sequences are `[1,0,0,0]` at index `j` and `[0,0,0,0]`
elsewhere. -/
theorem CalculateRMSE_reorder_one (n : Nat) (hbound : n < 2 ^ 32)
    (p : Equiv.Perm (Fin n)) (hp : p ≠ 1) :
    ∃ (estimations ground_truth : List (VectorXd Double)) (he_len : estimations.length = n),
      ground_truth.length = n ∧ dim4 estimations ∧ dim4 ground_truth ∧
        allFinite estimations ∧ allFinite ground_truth ∧
        (CalculateRMSE Double.sqrt (reorder p estimations he_len) ground_truth []).1 ≠
          (CalculateRMSE Double.sqrt estimations ground_truth []).1 := by
  obtain ⟨j, hj⟩ : ∃ j, p j ≠ j := by
    by_contra hall
    push_neg at hall
    exact hp (Equiv.ext hall)
  have hpos : 1 ≤ n := by
    have := j.isLt
    omega
  refine ⟨unitAt n j, unitAt n j, length_unitAt n j, length_unitAt n j, dim4_unitAt n j,
    dim4_unitAt n j, allFinite_unitAt n j, allFinite_unitAt n j, ?_⟩
  rw [CalculateRMSE_self_finite (unitAt n j) [] (dim4_unitAt n j) (allFinite_unitAt n j)
      (by rw [length_unitAt]; exact hbound),
    CalculateRMSE_fold Double.sqrt (reorder p (unitAt n j) (length_unitAt n j)) (unitAt n j) []
      (by rw [length_reorder, length_unitAt]) (by rw [length_reorder]; exact hpos)
      (dim4_reorder p _ _ (dim4_unitAt n j)) (dim4_unitAt n j)]
  simp only [length_reorder]
  intro h
  have h0 : Double.sqrt (sumSq (reorder p (unitAt n j) (length_unitAt n j)) (unitAt n j) 0 n /
      ((n : Nat) : Double)) = 0 := by
    have := List.head_eq_of_cons_eq (Option.some.inj h)
    exact this
  have hsum : Double.atLeastOne
      (sumSq (reorder p (unitAt n j) (length_unitAt n j)) (unitAt n j) 0 n) = true := by
    unfold sumSq
    refine (Double.atLeastOne_foldl _ (List.range n) ?_ 0 (Or.inl rfl)).2
      (Or.inr ⟨j, List.mem_range.2 j.isLt, ?_⟩)
    · intro i hi
      exact (sqResidual_unitAt_reorder n j p ⟨i, List.mem_range.1 hi⟩).1
    · exact (sqResidual_unitAt_reorder n j p j).2 hj rfl
  exact Double.div_natCast_ne_zero hsum hpos hbound (Double.eq_zero_of_sqrt_eq_zero h0)

/-- Witness of the amended C11: two pairs and the swap of the two indices. -/
theorem CalculateRMSE_reorder_one_witness :
    (2 < 2 ^ 32 ∧ Equiv.swap (0 : Fin 2) 1 ≠ 1) ∧
    ∃ (estimations ground_truth : List (VectorXd Double)) (he_len : estimations.length = 2),
      ground_truth.length = 2 ∧ dim4 estimations ∧ dim4 ground_truth ∧
        allFinite estimations ∧ allFinite ground_truth ∧
        (CalculateRMSE Double.sqrt (reorder (Equiv.swap (0 : Fin 2) 1) estimations he_len)
            ground_truth []).1 ≠
          (CalculateRMSE Double.sqrt estimations ground_truth []).1 :=
  ⟨⟨by decide, by decide⟩,
    CalculateRMSE_reorder_one 2 (by decide) (Equiv.swap (0 : Fin 2) 1) (by decide)⟩

namespace Double

theorem sig_succ_mul_le {m m' e e' : Nat} (hm : m < 2 ^ 53) (hm' : 2 ^ 52 ≤ m') (he : e < e') :
    (m + 1) * 2 ^ e ≤ m' * 2 ^ e' := by
  calc (m + 1) * 2 ^ e ≤ 2 ^ 53 * 2 ^ e := Nat.mul_le_mul_right _ hm
    _ = 2 ^ 52 * 2 ^ (e + 1) := by rw [pow_succ 2 e, pow_succ 2 52]; ring
    _ ≤ 2 ^ 52 * 2 ^ e' := Nat.mul_le_mul_left _ (Nat.pow_le_pow_right (by decide) he)
    _ ≤ m' * 2 ^ e' := Nat.mul_le_mul_right _ hm'

/-- The rounded square root is monotone. -/
theorem sqrtMag_mono {N N' : Nat} (h : N ≤ N') : sqrtMag N ≤ sqrtMag N' := by
  have hr := isqrt_mono h
  have he := ulpExp_mono hr
  have hm := div_pow_ulpExp_lt (isqrt N)
  have hdiv : ulpExp (isqrt N) = ulpExp (isqrt N') →
      isqrt N / 2 ^ ulpExp (isqrt N) ≤ isqrt N' / 2 ^ ulpExp (isqrt N') := by
    intro heq
    rw [← heq]
    exact Nat.div_le_div_right hr
  have hbig : ulpExp (isqrt N) < ulpExp (isqrt N') →
      2 ^ 52 ≤ isqrt N' / 2 ^ ulpExp (isqrt N') := fun hlt =>
    le_div_pow_ulpExp (lt_of_le_of_lt (Nat.zero_le _) hlt)
  unfold sqrtMag
  generalize ulpExp (isqrt N) = e at *
  generalize ulpExp (isqrt N') = e' at *
  generalize isqrt N / 2 ^ e = m at *
  generalize isqrt N' / 2 ^ e' = m' at *
  have hstep : ¬ (e = e' ∧ m = m') → (m + 1) * 2 ^ e ≤ m' * 2 ^ e' := by
    intro hne
    rcases Nat.lt_or_eq_of_le he with hlt | heq
    · exact sig_succ_mul_le hm (hbig hlt) hlt
    · subst heq
      have := hdiv rfl
      exact Nat.mul_le_mul_right _ (by omega)
  have hlow : m * 2 ^ e ≤ (m + 1) * 2 ^ e := Nat.mul_le_mul_right _ (Nat.le_succ m)
  have hlow' : m' * 2 ^ e' ≤ (m' + 1) * 2 ^ e' := Nat.mul_le_mul_right _ (Nat.le_succ m')
  by_cases hsame : e = e' ∧ m = m'
  · obtain ⟨rfl, rfl⟩ := hsame
    generalize (2 * m + 1) ^ 2 * 4 ^ e = K
    split_ifs with h1 h2 h2
    · exact Nat.le_refl _
    · exfalso
      omega
    · exact hlow
    · exact Nat.le_refl _
  · have := hstep hsame
    split_ifs <;> omega

theorem isPlus_cases {x : Double} (h : x.isPlus = true) :
    (∃ u, x = finite false u) ∨ x = inf false := by
  cases x with
  | finite a u =>
    simp only [isPlus, Bool.not_eq_true'] at h
    subst h
    exact Or.inl ⟨u, rfl⟩
  | inf a =>
    simp only [isPlus, Bool.not_eq_true'] at h
    subst h
    exact Or.inr rfl
  | nan => simp [isPlus] at h

theorem le_inf_of_isPlus {x : Double} (h : x.isPlus = true) : le x (inf false) = true := by
  rcases isPlus_cases h with ⟨u, rfl⟩ | rfl <;> rfl

theorem le_finite_iff {x : Double} {v : Nat} (hx : x.isPlus = true)
    (h : le x (finite false v) = true) : ∃ u, u ≤ v ∧ x = finite false u := by
  rcases isPlus_cases hx with ⟨u, rfl⟩ | rfl
  · exact ⟨u, by simpa [le] using h, rfl⟩
  · simp [le] at h

/-- Rounding is monotone as a map to doubles. -/
theorem le_round {P Q P' Q' : Nat} (h : roundMag P Q ≤ roundMag P' Q') :
    le (round false P Q) (round false P' Q') = true := by
  rcases round_eq_or false P' Q' with ⟨h2, _⟩ | ⟨h2, hno2⟩
  · rw [h2]
    exact le_inf_of_isPlus (isPlus_round _ _)
  · rcases round_eq_or false P Q with ⟨_, hov⟩ | ⟨h1, _⟩
    · exact absurd (le_trans hov h) hno2
    · rw [h1, h2]
      simpa [le] using h

theorem mul_self_le {x y : Double} (h : absLe x y = true) : le (x * x) (y * y) = true := by
  cases y with
  | finite b v =>
    cases x with
    | finite a u =>
      rw [mul_finite, mul_finite, bne_self_eq_false, bne_self_eq_false]
      have huv : u ≤ v := by simpa [absLe] using h
      exact le_round (roundMag_mono _ (Nat.mul_le_mul huv huv))
    | inf a => simp [absLe] at h
    | nan => simp [absLe] at h
  | inf b =>
    rw [inf_mul_self]
    refine le_inf_of_isPlus (isPlus_mul_self ?_)
    rintro rfl
    simp [absLe] at h
  | nan => cases x <;> simp [absLe] at h

theorem ne_nan_of_absLe_left {x y : Double} (h : absLe x y = true) : x ≠ nan := by
  rintro rfl
  simp [absLe] at h

theorem ne_nan_of_absLe_right {x y : Double} (h : absLe x y = true) : y ≠ nan := by
  rintro rfl
  cases x <;> simp [absLe] at h

theorem add_le_add {a a' b b' : Double} (ha : a.isPlus = true) (ha' : a'.isPlus = true)
    (hb : b.isPlus = true) (hb' : b'.isPlus = true)
    (h1 : le a a' = true) (h2 : le b b' = true) : le (a + b) (a' + b') = true := by
  rcases isPlus_cases ha' with ⟨u', rfl⟩ | rfl
  · rcases isPlus_cases hb' with ⟨v', rfl⟩ | rfl
    · obtain ⟨u, hu, rfl⟩ := le_finite_iff ha h1
      obtain ⟨v, hv, rfl⟩ := le_finite_iff hb h2
      rw [add_finite_same, add_finite_same]
      exact le_round (roundMag_mono _ (Nat.add_le_add hu hv))
    · exact le_inf_of_isPlus (isPlus_add ha hb)
  · have : inf false + b' = inf false := by
      rcases isPlus_cases hb' with ⟨v', rfl⟩ | rfl <;> rfl
    rw [this]
    exact le_inf_of_isPlus (isPlus_add ha hb)

theorem div_natCast_le {a a' : Double} (ha : a.isPlus = true) (ha' : a'.isPlus = true)
    (h : le a a' = true) {n : Nat} (h1 : 1 ≤ n) (h2 : n < 2 ^ 53) :
    le (a / ((n : Nat) : Double)) (a' / ((n : Nat) : Double)) = true := by
  rcases isPlus_cases ha' with ⟨u', rfl⟩ | rfl
  · obtain ⟨u, hu, rfl⟩ := le_finite_iff ha h
    rw [natCast_def, ofNat_exact h2]
    have hy : n * unitsOfOne ≠ 0 :=
      Nat.mul_ne_zero (by omega) (Nat.pos_iff_ne_zero.1 unitsOfOne_pos)
    rw [div_finite _ _ _ hy, div_finite _ _ _ hy]
    exact le_round (roundMag_mono _ (Nat.mul_le_mul_right _ hu))
  · have hq := isPlus_div_natCast ha h1 h2
    rw [natCast_def, ofNat_exact h2] at hq ⊢
    exact le_inf_of_isPlus hq

theorem sqrt_le_sqrt {a a' : Double} (ha : a.isPlus = true) (ha' : a'.isPlus = true)
    (h : le a a' = true) : le (sqrt a) (sqrt a') = true := by
  rcases isPlus_cases ha' with ⟨u', rfl⟩ | rfl
  · obtain ⟨u, hu, rfl⟩ := le_finite_iff ha h
    by_cases h0 : u = 0
    · subst h0
      have : sqrt (finite false 0) = 0 := sqrt_zero
      rw [this]
      exact le_zero_of_isPlus (isPlus_sqrt ha')
    · rw [sqrt_finite h0, sqrt_finite (by omega)]
      have := sqrtMag_mono (Nat.mul_le_mul_right unitsOfOne hu)
      simpa [le] using this
  · exact le_inf_of_isPlus (isPlus_sqrt ha)

/-- Two sums added in the same order, the terms of the first at most the terms of
the second: the first sum is at most the second. -/
theorem foldl_le_foldl (T T' : Nat → Double) (l : List Nat)
    (hT : ∀ i ∈ l, (T i).isPlus = true ∧ (T' i).isPlus = true ∧ le (T i) (T' i) = true)
    (acc acc' : Double) (ha : acc.isPlus = true) (ha' : acc'.isPlus = true)
    (h : le acc acc' = true) :
    (l.foldl (fun a i => a + T i) acc).isPlus = true ∧
      (l.foldl (fun a i => a + T' i) acc').isPlus = true ∧
      le (l.foldl (fun a i => a + T i) acc) (l.foldl (fun a i => a + T' i) acc') = true := by
  induction l generalizing acc acc' with
  | nil => exact ⟨ha, ha', h⟩
  | cons i l ih =>
    obtain ⟨h1, h2, h3⟩ := hT i (List.mem_cons_self _ _)
    rw [List.foldl_cons, List.foldl_cons]
    exact ih (fun i' hi' => hT i' (List.mem_cons_of_mem _ hi')) _ _
      (isPlus_add ha h1) (isPlus_add ha' h2) (add_le_add ha ha' h1 h2 h h3)

end Double

/-- Counterexample to C16 as stated: three pairs with the residual `0.3`
(`0x1.3333333333333p-2`) in component 0 each.  The smallest and the largest
absolute residual are both `0.3`, but the result is `0x1.3333333333334p-2`, one
unit in the last place above the largest: the squares, the sum and the quotient
are rounded. -/
theorem CalculateRMSE_above_largest_residual :
    (CalculateRMSE Double.sqrt
        [[Double.ofBits 0x3FD3333333333333, 0, 0, 0],
         [Double.ofBits 0x3FD3333333333333, 0, 0, 0],
         [Double.ofBits 0x3FD3333333333333, 0, 0, 0]]
        [[0, 0, 0, 0], [0, 0, 0, 0], [0, 0, 0, 0]] []).1 =
      some [Double.ofBits 0x3FD3333333333334, 0, 0, 0] ∧
    (∀ i, i < 3 →
      coeff [[Double.ofBits 0x3FD3333333333333, 0, 0, 0],
          [Double.ofBits 0x3FD3333333333333, 0, 0, 0],
          [Double.ofBits 0x3FD3333333333333, 0, 0, 0]] i 0 -
        coeff ([[0, 0, 0, 0], [0, 0, 0, 0], [0, 0, 0, 0]] : List (VectorXd Double)) i 0 =
        Double.ofBits 0x3FD3333333333333) ∧
    Double.le (Double.ofBits 0x3FD3333333333334) (Double.ofBits 0x3FD3333333333333) = false := by
  decide!

/-- Claim C16, amended: for sequences of equal length `n`, `1 ≤ n < 2^32`, of
4-dimensional vectors, a component `k` and doubles `lo`, `hi` with
`|lo| ≤ |estimations[i][k] - ground_truth[i][k]| ≤ |hi|` for every index `i`
(for instance the residuals of smallest and of largest absolute value), the
`k`-th component of the result of `CalculateRMSE` lies between the values the
same computation gives when every residual is `lo` and when every residual is
`hi`: `constRMSE lo n ≤ result[k] ≤ constRMSE hi n`.  (Each operation of the
code is monotone; the bounds `|lo|` and `|hi|` themselves can be missed by one
rounding.) -/
theorem CalculateRMSE_between (estimations ground_truth : List (VectorXd Double))
    (cout : List String)
    (hlen : estimations.length = ground_truth.length) (hpos : 1 ≤ estimations.length)
    (hbound : estimations.length < 2 ^ 32)
    (he : dim4 estimations) (hg : dim4 ground_truth) (k : Fin 4) (lo hi : Double)
    (hlo : ∀ i, i < estimations.length →
      Double.absLe lo (coeff estimations i k - coeff ground_truth i k) = true)
    (hhi : ∀ i, i < estimations.length →
      Double.absLe (coeff estimations i k - coeff ground_truth i k) hi = true) :
    ∃ rmse, (CalculateRMSE Double.sqrt estimations ground_truth cout).1 = some rmse ∧
      Double.le (constRMSE lo estimations.length) (rmse.getD k 0) = true ∧
      Double.le (rmse.getD k 0) (constRMSE hi estimations.length) = true := by
  rw [CalculateRMSE_fold Double.sqrt estimations ground_truth cout hlen hpos he hg]
  refine ⟨_, rfl, ?_⟩
  rw [getD_fin4 _ _ _ _
    (fun k => Double.sqrt (sumSq estimations ground_truth k estimations.length /
      ((estimations.length : Nat) : Double))) rfl rfl rfl rfl k]
  have h53 : estimations.length < 2 ^ 53 := lt_trans hbound (by decide)
  have hl := Double.foldl_le_foldl (fun _ => lo * lo)
    (fun i => sqResidual estimations ground_truth k i) (List.range estimations.length)
    (fun i hi' => ⟨Double.isPlus_mul_self (Double.ne_nan_of_absLe_left (hlo i (List.mem_range.1 hi'))),
      Double.isPlus_mul_self (Double.ne_nan_of_absLe_right (hlo i (List.mem_range.1 hi'))),
      Double.mul_self_le (hlo i (List.mem_range.1 hi'))⟩)
    0 0 Double.isPlus_zero Double.isPlus_zero (Double.le_zero_of_isPlus Double.isPlus_zero)
  have hh := Double.foldl_le_foldl (fun i => sqResidual estimations ground_truth k i)
    (fun _ => hi * hi) (List.range estimations.length)
    (fun i hi' => ⟨Double.isPlus_mul_self (Double.ne_nan_of_absLe_left (hhi i (List.mem_range.1 hi'))),
      Double.isPlus_mul_self (Double.ne_nan_of_absLe_right (hhi i (List.mem_range.1 hi'))),
      Double.mul_self_le (hhi i (List.mem_range.1 hi'))⟩)
    0 0 Double.isPlus_zero Double.isPlus_zero (Double.le_zero_of_isPlus Double.isPlus_zero)
  exact ⟨Double.sqrt_le_sqrt (Double.isPlus_div_natCast hl.1 hpos h53)
      (Double.isPlus_div_natCast hl.2.1 hpos h53)
      (Double.div_natCast_le hl.1 hl.2.1 hl.2.2 hpos h53),
    Double.sqrt_le_sqrt (Double.isPlus_div_natCast hh.1 hpos h53)
      (Double.isPlus_div_natCast hh.2.1 hpos h53)
      (Double.div_natCast_le hh.1 hh.2.1 hh.2.2 hpos h53)⟩

/-- Witness of the amended C16: residuals `0.1`, `0.3`, `0.2` in component 0,
between `lo = 0.1` and `hi = 0.3`. -/
theorem CalculateRMSE_between_witness :
    ((3 : Nat) = 3 ∧ 1 ≤ 3 ∧ 3 < 2 ^ 32 ∧
      (∀ i, i < 3 → Double.absLe (Double.ofBits 0x3FB999999999999A)
        (coeff [[Double.ofBits 0x3FB999999999999A, 0, 0, 0],
            [Double.ofBits 0x3FD3333333333333, 0, 0, 0],
            [Double.ofBits 0x3FC999999999999A, 0, 0, 0]] i 0 -
          coeff ([[0, 0, 0, 0], [0, 0, 0, 0], [0, 0, 0, 0]] : List (VectorXd Double)) i 0) =
          true) ∧
      (∀ i, i < 3 → Double.absLe
        (coeff [[Double.ofBits 0x3FB999999999999A, 0, 0, 0],
            [Double.ofBits 0x3FD3333333333333, 0, 0, 0],
            [Double.ofBits 0x3FC999999999999A, 0, 0, 0]] i 0 -
          coeff ([[0, 0, 0, 0], [0, 0, 0, 0], [0, 0, 0, 0]] : List (VectorXd Double)) i 0)
        (Double.ofBits 0x3FD3333333333333) = true)) ∧
    ∃ rmse, (CalculateRMSE Double.sqrt
        [[Double.ofBits 0x3FB999999999999A, 0, 0, 0],
         [Double.ofBits 0x3FD3333333333333, 0, 0, 0],
         [Double.ofBits 0x3FC999999999999A, 0, 0, 0]]
        [[0, 0, 0, 0], [0, 0, 0, 0], [0, 0, 0, 0]] []).1 = some rmse ∧
      Double.le (constRMSE (Double.ofBits 0x3FB999999999999A) 3) (rmse.getD (0 : Fin 4) 0) = true ∧
      Double.le (rmse.getD (0 : Fin 4) 0) (constRMSE (Double.ofBits 0x3FD3333333333333) 3) = true :=
  ⟨⟨rfl, by decide, by decide, by decide!, by decide!⟩,
    CalculateRMSE_between
      [[Double.ofBits 0x3FB999999999999A, 0, 0, 0],
       [Double.ofBits 0x3FD3333333333333, 0, 0, 0],
       [Double.ofBits 0x3FC999999999999A, 0, 0, 0]]
      [[0, 0, 0, 0], [0, 0, 0, 0], [0, 0, 0, 0]] [] (by simp) (by simp) (by simp)
      (by simp [dim4]) (by simp [dim4]) 0 (Double.ofBits 0x3FB999999999999A)
      (Double.ofBits 0x3FD3333333333333) (by decide!) (by decide!)⟩

end Tools
